import Mathlib

/-!
# Verification of the librato client's buffering machinery

This file gives a shallow embedding, in Lean 4, of the core data structures and
loops of the `librato` Go repository:

* `Librato.Queue` — the ring-buffer FIFO queue of `queue.go` (`Push`, `Pop`,
  `resize`, `NewQueue`);
* `Librato.ChanSys` / `Librato.ChanStep` — a labelled-transition-system
  semantics of `FlexibleChan` of `chan.go` (the `work` goroutine bridging the
  `rx` Go channel to the `tx` Go channel through the queue);
* `Librato.LoopState` / `Librato.workStep` — the collation loop
  `TimeCollatedClient.work` of `librato.go`;
* `Librato.buildObservation` — the observation-normalisation step of
  `TimeCollatedClient.runMetric`;
* `Librato.clientClose` — the channel-closing protocol of
  `TimeCollatedClient.Close`;
* `Librato.postAnnotationModel` — the early-return path of
  `TimeCollatedClient.PostAnnotation`.

Go `interface{}` values stored in the queue's backing array are modelled as
`Option α` (with `none` playing the role of Go `nil` in emptied slots); items
pushed by clients range over an arbitrary type `α`.  Go machine integers are
modelled as `Nat`; the two's-complement negation in `NewQueue`'s power-of-two
check is made explicit as `(2 ^ 64 - ms) % 2 ^ 64`.
-/

namespace Librato

/-- Go's `copy(dst, src)` builtin on slices: overwrites the first
`min dst.length src.length` entries of `dst` with those of `src`. -/
def goCopy {α : Type} (dst src : List α) : List α :=
  src.take (min dst.length src.length) ++ dst.drop (min dst.length src.length)

/-- The ring buffer of `queue.go`.  `items` is the backing array (a slot holds
`none` where the Go slice holds `nil`); `start`, `end_`, `count`, `ms` mirror
the Go fields `start`, `end`, `count`, `ms` (`end` is a Lean keyword, hence the
underscore). -/
structure Queue (α : Type) where
  items : List (Option α)
  start : Nat
  end_ : Nat
  count : Nat
  ms : Nat

/-- The queue state built by a successful `NewQueue(minBufferSize)` call:
an all-`nil` backing array of length `minBufferSize`. -/
def mkQueue (α : Type) (minBufferSize : Nat) : Queue α :=
  ⟨List.replicate minBufferSize none, 0, 0, 0, minBufferSize⟩

/-- `NewQueue` of `queue.go`.  The Go guard
`minBufferSize == 0 || minBufferSize&-minBufferSize != minBufferSize` panics;
a panic is modelled as `none`.  `-minBufferSize` is 64-bit two's complement,
i.e. `(2^64 - minBufferSize) % 2^64` for a non-negative `minBufferSize`. -/
def NewQueue (α : Type) (minBufferSize : Nat) : Option (Queue α) :=
  if minBufferSize = 0 ∨
      minBufferSize &&& ((2 ^ 64 - minBufferSize) % 2 ^ 64) ≠ minBufferSize then
    none
  else
    some (mkQueue α minBufferSize)

/-- `Queue.resize` of `queue.go`: allocate a buffer of size `count<<1`, copy
the live window (one or two `copy` calls, as in the source), and reset
`start = 0`, `end = count`. -/
def Queue.resize {α : Type} (q : Queue α) : Queue α :=
  let items0 : List (Option α) := List.replicate (q.count <<< 1) none
  let items :=
    if q.start < q.end_ then
      goCopy items0 ((q.items.drop q.start).take (q.end_ - q.start))
    else
      -- n := copy(items, q.items[q.start:]); copy(items[n:], q.items[:q.end])
      let n := min items0.length (q.items.drop q.start).length
      let first := goCopy items0 (q.items.drop q.start)
      first.take n ++ goCopy (first.drop n) (q.items.take q.end_)
  { q with items := items, start := 0, end_ := q.count }

/-- `Queue.Push` of `queue.go`. -/
def Queue.Push {α : Type} (q : Queue α) (item : α) : Queue α :=
  let q := if q.count = q.items.length then q.resize else q
  { q with
    items := q.items.set q.end_ (some item),
    end_ := (q.end_ + 1) &&& (q.items.length - 1),
    count := q.count + 1 }

/-- `Queue.Pop` of `queue.go`: returns the Go pair `(item, found)` (the item is
the stored `interface{}` value, so an `Option α`) together with the updated
queue. -/
def Queue.Pop {α : Type} (q : Queue α) : (Option α × Bool) × Queue α :=
  if q.count = 0 then ((none, false), q)
  else
    let item := q.items.getD q.start none
    let items := q.items.set q.start none
    let start := (q.start + 1) &&& (items.length - 1)
    let q1 : Queue α :=
      { q with items := items, start := start, count := q.count - 1 }
    let q2 := if q1.count <<< 2 = q1.items.length ∧ q1.ms < q1.items.length
      then q1.resize else q1
    ((item, true), q2)

/-- `Queue.Length` of `queue.go`. -/
def Queue.Length {α : Type} (q : Queue α) : Nat :=
  q.count

/-- An operation applied to a queue by a client: a push of an item, or a pop. -/
inductive QOp (α : Type) where
  | push (a : α)
  | pop

/-- Run a sequence of operations against the ring buffer, collecting the
`(item, found)` result of every `Pop`. -/
def runQ {α : Type} (q : Queue α) : List (QOp α) → List (Option α × Bool) × Queue α
  | [] => ([], q)
  | .push a :: ops => runQ (q.Push a) ops
  | .pop :: ops =>
    let r := q.Pop
    let rest := runQ r.2 ops
    (r.1 :: rest.1, rest.2)

/-- The obviously-correct FIFO reference: popping from a plain list. -/
def specPop {α : Type} : List α → (Option α × Bool) × List α
  | [] => ((none, false), [])
  | x :: xs => ((some x, true), xs)

/-- Run a sequence of operations against the plain-list FIFO reference. -/
def runSpec {α : Type} (l : List α) : List (QOp α) → List (Option α × Bool) × List α
  | [] => ([], l)
  | .push a :: ops => runSpec (l ++ [a]) ops
  | .pop :: ops =>
    let r := specPop l
    let rest := runSpec r.2 ops
    (r.1 :: rest.1, rest.2)

/-- The queue states reachable from a fresh `NewQueue ms` by `Push`/`Pop`. -/
def ReachQ (α : Type) (ms : Nat) (q : Queue α) : Prop :=
  ∃ ops : List (QOp α), q = (runQ (mkQueue α ms) ops).2

/-- The coupling invariant between a `Queue` and the plain list `l` of its live
contents, oldest first.  `ms0` is the minimum size the queue was created
with. -/
def QInv {α : Type} (ms0 : Nat) (q : Queue α) (l : List α) : Prop :=
  (∃ p, q.items.length = 2 ^ p) ∧
  (∃ p, ms0 = 2 ^ p) ∧
  q.ms = ms0 ∧
  q.ms ≤ q.items.length ∧
  q.count = l.length ∧
  q.count ≤ q.items.length ∧
  q.start < q.items.length ∧
  q.end_ = (q.start + q.count) % q.items.length ∧
  ∀ i, (hi : i < l.length) →
    q.items.getD ((q.start + i) % q.items.length) none = some (l.get ⟨i, hi⟩)

/-! ## `FlexibleChan` of `chan.go` as a labelled transition system

The `work` goroutine is a `select` loop; we model the whole system — producer
(`Push`), `rx` and `tx` Go channels (bounded FIFOs of capacity `ms`),
the worker's local state (`inCh`, `outCh`/`outItem`, `buf`), and the consumer
(`Pop`) — as a transition relation.  `outPending = none` models `outCh = nil`
(the output `select` case disabled); `outPending = some a` models
`outCh = c.tx` with `outItem = a` (the worker re-establishes this coupling at
every step, since `outItem` is only ever read when `outCh` is enabled).
`pushed` and `popped` are history variables recording the values pushed by the
producer and the results returned by `Pop`. -/
structure ChanSys (α : Type) where
  ms : Nat
  rxQ : List α
  rxClosed : Bool
  inEnabled : Bool
  outPending : Option α
  buf : Queue α
  txQ : List α
  txClosed : Bool
  quitClosed : Bool
  workerDone : Bool
  pushed : List α
  popped : List (Option α × Bool)

/-- `NewFlexibleChan ms`: empty channels, worker running with the input case
enabled and the output case disabled, and a fresh queue of minimum size
`2 << 10 = 2048`. -/
def initChan (α : Type) (ms : Nat) : ChanSys α :=
  ⟨ms, [], false, true, none, mkQueue α (2 <<< 10), [], false, false, false, [], []⟩

/-- One step of the `FlexibleChan` system: a producer `Push` (blocks while `rx`
is full), `Close` (closes `rx`), one iteration of the worker's `select`
(receive from `rx`, observe `rx` closed, or send to `tx` and refill from the
buffer — exactly the branches of `FlexibleChan.work`), or a consumer `Pop`
(receive from `tx`; a closed empty `tx` yields `(nil, false)`). -/
inductive ChanStep {α : Type} : ChanSys α → ChanSys α → Prop where
  | push (s : ChanSys α) (a : α) :
      s.rxClosed = false → s.rxQ.length < s.ms →
      ChanStep s { s with rxQ := s.rxQ ++ [a], pushed := s.pushed ++ [a] }
  | closeInput (s : ChanSys α) :
      s.rxClosed = false →
      ChanStep s { s with rxClosed := true }
  | recvDirect (s : ChanSys α) (a : α) (rest : List α) :
      s.workerDone = false → s.inEnabled = true →
      s.rxQ = a :: rest → s.outPending = none →
      ChanStep s { s with rxQ := rest, outPending := some a }
  | recvBuffer (s : ChanSys α) (a : α) (rest : List α) (b : α) :
      s.workerDone = false → s.inEnabled = true →
      s.rxQ = a :: rest → s.outPending = some b →
      ChanStep s { s with rxQ := rest, buf := s.buf.Push a }
  | recvClosedFinal (s : ChanSys α) :
      s.workerDone = false → s.inEnabled = true →
      s.rxQ = [] → s.rxClosed = true → s.outPending = none →
      ChanStep s { s with txClosed := true, quitClosed := true, workerDone := true }
  | recvClosedBusy (s : ChanSys α) (b : α) :
      s.workerDone = false → s.inEnabled = true →
      s.rxQ = [] → s.rxClosed = true → s.outPending = some b →
      ChanStep s { s with inEnabled := false }
  | sendNext (s : ChanSys α) (a : α) (v : Option α) (buf2 : Queue α) :
      s.workerDone = false → s.outPending = some a → s.txQ.length < s.ms →
      s.buf.Pop = ((v, true), buf2) →
      ChanStep s { s with txQ := s.txQ ++ [a], outPending := v, buf := buf2 }
  | sendEmptyOpen (s : ChanSys α) (a : α) (v : Option α) (buf2 : Queue α) :
      s.workerDone = false → s.outPending = some a → s.txQ.length < s.ms →
      s.buf.Pop = ((v, false), buf2) → s.inEnabled = true →
      ChanStep s { s with txQ := s.txQ ++ [a], outPending := none, buf := buf2 }
  | sendEmptyClosed (s : ChanSys α) (a : α) (v : Option α) (buf2 : Queue α) :
      s.workerDone = false → s.outPending = some a → s.txQ.length < s.ms →
      s.buf.Pop = ((v, false), buf2) → s.inEnabled = false →
      ChanStep s
        { s with
          txQ := s.txQ ++ [a], outPending := none, buf := buf2,
          txClosed := true, quitClosed := true, workerDone := true }
  | popItem (s : ChanSys α) (v : α) (rest : List α) :
      s.txQ = v :: rest →
      ChanStep s { s with txQ := rest, popped := s.popped ++ [(some v, true)] }
  | popClosed (s : ChanSys α) :
      s.txQ = [] → s.txClosed = true →
      ChanStep s { s with popped := s.popped ++ [(none, false)] }

/-- States reachable from a fresh `NewFlexibleChan ms`. -/
def ChanReachable (α : Type) (ms : Nat) (s : ChanSys α) : Prop :=
  Relation.ReflTransGen ChanStep (initChan α ms) s

/-- All items in flight, oldest first: buffered in `tx`, held by the worker,
buffered in the queue (`l` is the queue's abstract contents), buffered in
`rx`. -/
def pendWith {α : Type} (s : ChanSys α) (l : List α) : List α :=
  s.txQ ++ s.outPending.toList ++ l ++ s.rxQ

/-- The number of pushed-but-not-yet-popped items in a channel state. -/
def pendCount {α : Type} (s : ChanSys α) : Nat :=
  s.rxQ.length + s.buf.count + (if s.outPending.isSome then 1 else 0)
    + s.txQ.length

/-- The coupling invariant of the channel system: the queue refines some list
`l`; the pop history is a prefix of the push history (as successes, in push
order) followed by `(nil, false)` results; the pending pushes are exactly the
items in flight; and the worker's control flags are consistent. -/
def ChanInv {α : Type} (s : ChanSys α) : Prop :=
  ∃ l k f,
    QInv (2 <<< 10) s.buf l ∧
    k ≤ s.pushed.length ∧
    s.popped = ((s.pushed.take k).map fun a => (some a, true))
      ++ List.replicate f (none, false) ∧
    s.pushed.drop k = pendWith s l ∧
    (f ≠ 0 → s.txQ = [] ∧ s.workerDone = true) ∧
    (s.outPending = none → l = []) ∧
    (s.inEnabled = false → s.rxClosed = true ∧ s.rxQ = []) ∧
    (s.inEnabled = false → s.outPending = none → s.workerDone = true) ∧
    (s.workerDone = true → s.outPending = none ∧ s.rxQ = [] ∧ s.rxClosed = true) ∧
    s.txClosed = s.workerDone ∧
    s.quitClosed = s.workerDone

/-- The deterministic drain schedule used to prove termination after `Close`:
the consumer keeps popping, and the worker keeps running, until `quit` is
closed.  Every step taken is a `ChanStep`. -/
def drainStep {α : Type} (s : ChanSys α) : ChanSys α :=
  if s.quitClosed then s
  else
    match s.txQ with
    | v :: rest => { s with txQ := rest, popped := s.popped ++ [(some v, true)] }
    | [] =>
      match s.outPending with
      | some a =>
        match s.buf.Pop with
        | ((v, true), buf2) =>
          { s with txQ := s.txQ ++ [a], outPending := v, buf := buf2 }
        | ((_, false), buf2) =>
          if s.inEnabled then
            { s with txQ := s.txQ ++ [a], outPending := none, buf := buf2 }
          else
            { s with
              txQ := s.txQ ++ [a], outPending := none, buf := buf2,
              txClosed := true, quitClosed := true, workerDone := true }
      | none =>
        if s.inEnabled then
          match s.rxQ with
          | a :: rest => { s with rxQ := rest, outPending := some a }
          | [] => { s with txClosed := true, quitClosed := true, workerDone := true }
        else s

/-- Iterate the drain schedule. -/
def drainIter {α : Type} : Nat → ChanSys α → ChanSys α
  | 0, s => s
  | n + 1, s => drainIter n (drainStep s)

/-- Termination measure for the drain schedule. -/
def chanMeasure {α : Type} (s : ChanSys α) : Nat :=
  3 * s.rxQ.length + 2 * s.buf.count
    + 2 * (if s.outPending.isSome then 1 else 0) + s.txQ.length
    + (if s.inEnabled then 1 else 0) + (if s.workerDone then 0 else 1)

/-! ## The collation loop `TimeCollatedClient.work` of `librato.go` -/

/-- Which of the three flush paths produced a posted batch. -/
inductive Trigger where
  | timer
  | threshold
  | shutdown
  deriving DecidableEq

/-- The local state of the collation loop: the two accumulation slices, the
count of closed collation channels, whether each channel variable is still
non-nil, the log of bodies handed to `postMetric` (each side `some` exactly
when the body carries that key), and whether the loop has returned. -/
structure LoopState (ω : Type) where
  gauges : List ω
  counters : List ω
  closed : Nat
  gaugeOpen : Bool
  counterOpen : Bool
  posted : List (Trigger × Option (List ω) × Option (List ω))
  stopped : Bool

/-- One firing of the loop's `select`: the ticker, a receive (or close
observation) on either collation channel, or the `default` branch. -/
inductive LoopEvent (ω : Type) where
  | tick
  | gaugeRecv (item : ω)
  | gaugeClosed
  | counterRecv (item : ω)
  | counterClosed
  | deflt

/-- `MaxMetrics` of `librato.go` (default 300). -/
def MaxMetrics : Nat := 300

/-- The `params` map built in the `default` branch: a key is present exactly
when its slice is non-empty. -/
def mkParams {ω : Type} (g c : List ω) : Option (List ω) × Option (List ω) :=
  ((if 0 < g.length then some g else none),
   (if 0 < c.length then some c else none))

/-- One iteration of `TimeCollatedClient.work`'s `select` statement. -/
def workStep {ω : Type} (mx : Nat) (s : LoopState ω) (e : LoopEvent ω) :
    LoopState ω :=
  if s.stopped then s
  else
    match e with
    | .tick =>
      if 0 < s.gauges.length ∨ 0 < s.counters.length then
        { s with
          posted := s.posted
            ++ [(Trigger.timer, some s.gauges, some s.counters)],
          gauges := [], counters := [] }
      else s
    | .gaugeRecv v =>
      if s.gaugeOpen then { s with gauges := s.gauges ++ [v] } else s
    | .gaugeClosed =>
      if s.gaugeOpen then
        { s with closed := s.closed + 1, gaugeOpen := false }
      else s
    | .counterRecv v =>
      if s.counterOpen then { s with counters := s.counters ++ [v] } else s
    | .counterClosed =>
      if s.counterOpen then
        { s with closed := s.closed + 1, counterOpen := false }
      else s
    | .deflt =>
      if s.closed = 2 then
        -- shutdown: stop the ticker, flush the non-empty sides, close c.stop
        { s with
          posted := s.posted
            ++ (if 0 < s.gauges.length ∨ 0 < s.counters.length then
              [(Trigger.shutdown, (mkParams s.gauges s.counters).1,
                (mkParams s.gauges s.counters).2)]
            else []),
          gauges := [], counters := [], stopped := true }
      else if mx ≤ s.gauges.length + s.counters.length then
        -- threshold: flush early, without waiting for the timer
        { s with
          posted := s.posted
            ++ (if 0 < s.gauges.length ∨ 0 < s.counters.length then
              [(Trigger.threshold, (mkParams s.gauges s.counters).1,
                (mkParams s.gauges s.counters).2)]
            else []),
          gauges := [], counters := [] }
      else s

/-- The loop state at entry to `work`. -/
def initLoop (ω : Type) : LoopState ω :=
  ⟨[], [], 0, true, true, [], false⟩

/-- Run the loop over a sequence of select firings. -/
def runLoop {ω : Type} (mx : Nat) (s : LoopState ω) :
    List (LoopEvent ω) → LoopState ω
  | [] => s
  | e :: es => runLoop mx (workStep mx s e) es

/-! ## Observation construction in `TimeCollatedClient.runMetric` -/

/-- Go `interface{}` values as they appear in the metric pipeline: strings,
integers (epoch seconds), and `map[string]interface{}` records. -/
inductive GoVal where
  | vstr (s : String)
  | vint (n : Int)
  | vmap (fields : List (String × GoVal))

/-- Assignment `b[k] = v` on a Go map modelled as a lookup function. -/
def setK (b : String → Option GoVal) (k : String) (v : GoVal) :
    String → Option GoVal :=
  fun kk => if kk = k then some v else b kk

/-- The body map built by `runMetric` for one raw item popped from the
per-source channel `name`: start from `name`/`measure_time` (and `source` if
the configured source is non-empty), then merge the item's fields if it is a
record, or store it under `value` otherwise; finally default `measure_time`
if absent (dead in practice, since it is always set up front).  Both
`time.Now().Unix()` calls are modelled by the same `now`. -/
def buildObservation (name source : String) (now : Int) (item : GoVal) :
    String → Option GoVal :=
  let body0 := setK (setK (fun _ => none) "name" (GoVal.vstr name))
    "measure_time" (GoVal.vint now)
  let body1 := if source ≠ "" then setK body0 "source" (GoVal.vstr source)
    else body0
  let body2 :=
    match item with
    | GoVal.vmap fields => fields.foldl (fun b kv => setK b kv.1 kv.2) body1
    | _ => setK body1 "value" item
  if (body2 "measure_time").isSome then body2
  else setK body2 "measure_time" (GoVal.vint now)

/-- A raw value has no duplicate field names (Go maps cannot). -/
def noDupKeys : GoVal → Prop
  | GoVal.vmap fields => (fields.map Prod.fst).Nodup
  | _ => True

/-- The field bound to `k` in a raw value, when the value is a record. -/
def itemLookup : GoVal → String → Option GoVal
  | GoVal.vmap fields, k => fields.lookup k
  | _, _ => none

/-- Whether a raw value is a `map[string]interface{}` record. -/
def isRecord : GoVal → Bool
  | GoVal.vmap _ => true
  | _ => false

/-! ## `TimeCollatedClient.Close` and `PostAnnotation` -/

/-- Closing a Go channel: panics (`none`) if it is already closed. -/
def closeRxChan (closed : Bool) : Option Bool :=
  if closed then none else some true

/-- Close every per-source channel in a map, left to right. -/
def closeAllChans (l : List Bool) : Option (List Bool) :=
  l.mapM closeRxChan

/-- The closed/open state of all input channels owned by a
`TimeCollatedClient`: one per gauge source, one per counter source, and the
two shared collation channels. -/
structure ClientChans where
  gauges : List Bool
  counters : List Bool
  collateGauges : Bool
  collateCounters : Bool

/-- `TimeCollatedClient.Close`: close every gauge channel, every counter
channel, then the two collation channels (the interleaved `Wait` calls do not
affect the closed flags).  `none` models a `close of closed channel` panic. -/
def clientClose (c : ClientChans) : Option ClientChans := do
  let g ← closeAllChans c.gauges
  let t ← closeAllChans c.counters
  let cg ← closeRxChan c.collateGauges
  let cc ← closeRxChan c.collateCounters
  pure ⟨g, t, cg, cc⟩

/-- The externally visible actions `PostAnnotation` can take after its
name guard. -/
inductive AnnotEffect where
  | serializeBody
  | httpPost (url : String)

/-- `annotationsURL` of `librato.go`. -/
def annotationsURLModel : String :=
  "https://metrics-api.librato.com/v1/annotations"

/-- The message of `ErrNoNameAnnotation`. -/
def errNoNameAnnotMsg : String := "Annotation must have name"

/-- `TimeCollatedClient.PostAnnotation` with the client state `st` threaded
through explicitly: with an empty `name` it returns `ErrNoNameAnnotation`
before serializing or issuing any request; otherwise it marshals the body and
posts it to `annotationsURL/name`. -/
def postAnnotationModel (σ : Type) (st : σ) (name : String) :
    σ × List AnnotEffect × Option String :=
  if name = "" then (st, [], some errNoNameAnnotMsg)
  else
    (st,
      [AnnotEffect.serializeBody,
        AnnotEffect.httpPost (annotationsURLModel ++ "/" ++ name)],
      none)

/-! ## Bit-arithmetic facts for the power-of-two check and index masking -/

/-- `&&&` on even/odd decompositions, bit by bit. -/
theorem land_bit (r s : Bool) (a b : Nat) :
    (2 * a + r.toNat) &&& (2 * b + s.toNat) = 2 * (a &&& b) + (r && s).toNat := by
  have tnr : r.toNat < 2 := by cases r <;> decide
  have tns : s.toNat < 2 := by cases s <;> decide
  apply Nat.eq_of_testBit_eq
  intro i
  cases i with
  | zero =>
    rw [Nat.testBit_land]
    simp only [Nat.testBit_zero]
    have h1 : (2 * a + r.toNat) % 2 = r.toNat := by omega
    have h2 : (2 * b + s.toNat) % 2 = s.toNat := by omega
    have h3 : (2 * (a &&& b) + (r && s).toNat) % 2 = (r && s).toNat := by
      have : (r && s).toNat < 2 := by cases r <;> cases s <;> decide
      omega
    rw [h1, h2, h3]
    cases r <;> cases s <;> rfl
  | succ i =>
    rw [Nat.testBit_land]
    simp only [Nat.testBit_add_one]
    have h1 : (2 * a + r.toNat) / 2 = a := by omega
    have h2 : (2 * b + s.toNat) / 2 = b := by omega
    have h3 : (2 * (a &&& b) + (r && s).toNat) / 2 = a &&& b := by
      have : (r && s).toNat < 2 := by cases r <;> cases s <;> decide
      omega
    rw [h1, h2, h3, Nat.testBit_land]

/-- A number and its complement within `j` bits share no set bit. -/
theorem land_compl_self (j : Nat) : ∀ m, m < 2 ^ j → m &&& ((2 ^ j - 1) - m) = 0 := by
  induction j with
  | zero => intro m hm; interval_cases m; rfl
  | succ j ih =>
    intro m hm
    have hpow : 2 ^ (j + 1) = 2 * 2 ^ j := by rw [pow_succ]; ring
    have hq : m / 2 < 2 ^ j := by omega
    have tnf : Bool.toNat false = 0 := rfl
    have tnt : Bool.toNat true = 1 := rfl
    rcases Nat.mod_two_eq_zero_or_one m with h2 | h2
    · calc m &&& ((2 ^ (j + 1) - 1) - m)
          = (2 * (m / 2) + Bool.toNat false)
            &&& (2 * ((2 ^ j - 1) - m / 2) + Bool.toNat true) := by
            have e1 : m = 2 * (m / 2) + Bool.toNat false := by omega
            have e2 : (2 ^ (j + 1) - 1) - m
                = 2 * ((2 ^ j - 1) - m / 2) + Bool.toNat true := by omega
            rw [← e1, ← e2]
      _ = 2 * ((m / 2) &&& ((2 ^ j - 1) - m / 2)) + (false && true).toNat :=
            land_bit false true (m / 2) ((2 ^ j - 1) - m / 2)
      _ = 0 := by rw [ih (m / 2) hq]; rfl
    · calc m &&& ((2 ^ (j + 1) - 1) - m)
          = (2 * (m / 2) + Bool.toNat true)
            &&& (2 * ((2 ^ j - 1) - m / 2) + Bool.toNat false) := by
            have e1 : m = 2 * (m / 2) + Bool.toNat true := by omega
            have e2 : (2 ^ (j + 1) - 1) - m
                = 2 * ((2 ^ j - 1) - m / 2) + Bool.toNat false := by omega
            rw [← e1, ← e2]
      _ = 2 * ((m / 2) &&& ((2 ^ j - 1) - m / 2)) + (true && false).toNat :=
            land_bit true false (m / 2) ((2 ^ j - 1) - m / 2)
      _ = 0 := by rw [ih (m / 2) hq]; rfl

/-- The core characterisation behind `NewQueue`'s guard: for `0 < a < 2^w`,
`a & -a == a` (with `-a` the two's complement within `w` bits) holds exactly
when `a` is a power of two. -/
theorem land_two_pow_sub_iff (a : Nat) : ∀ (w : Nat), 0 < a → a < 2 ^ w →
    ((a &&& (2 ^ w - a) = a) ↔ ∃ k, a = 2 ^ k) := by
  induction a using Nat.strong_induction_on with
  | _ a ih =>
    intro w h0 hw
    have tnf : Bool.toNat false = 0 := rfl
    have tnt : Bool.toNat true = 1 := rfl
    rcases Nat.even_or_odd a with he | ho
    · -- a = 2 * b with b ≥ 1
      obtain ⟨b, hb⟩ := he
      have hab : a = 2 * b := by omega
      have hbpos : 0 < b := by omega
      have hw1 : 1 ≤ w := by
        by_contra h
        interval_cases w <;> omega
      obtain ⟨w', rfl⟩ : ∃ w', w = w' + 1 := ⟨w - 1, by omega⟩
      have hpow : 2 ^ (w' + 1) = 2 * 2 ^ w' := by rw [pow_succ]; ring
      have hblt : b < 2 ^ w' := by omega
      have hland : a &&& (2 ^ (w' + 1) - a)
          = 2 * (b &&& (2 ^ w' - b)) + (false && false).toNat := by
        have e1 : a = 2 * b + Bool.toNat false := by omega
        have e2 : 2 ^ (w' + 1) - a = 2 * (2 ^ w' - b) + Bool.toNat false := by
          omega
        have h := land_bit false false b (2 ^ w' - b)
        rw [← e1, ← e2] at h
        exact h
      rw [hland, hab]
      have htn : (false && false).toNat = 0 := rfl
      constructor
      · intro h
        have hinner : b &&& (2 ^ w' - b) = b := by omega
        obtain ⟨k, hk⟩ := (ih b (by omega) w' hbpos hblt).mp hinner
        refine ⟨k + 1, ?_⟩
        rw [hk, pow_succ]
        ring
      · rintro ⟨k, hk⟩
        have hk1 : 1 ≤ k := by
          rcases Nat.eq_zero_or_pos k with rfl | h
          · omega
          · exact h
        have hpk : 2 ^ k = 2 * 2 ^ (k - 1) := by
          conv_lhs => rw [show k = (k - 1) + 1 by omega]
          rw [pow_succ]
          ring
        have hbk : b = 2 ^ (k - 1) := by omega
        have hinner : b &&& (2 ^ w' - b) = b :=
          (ih b (by omega) w' hbpos hblt).mpr ⟨k - 1, hbk⟩
        omega
    · -- a odd
      obtain ⟨m, hm⟩ := ho
      rcases Nat.eq_zero_or_pos m with rfl | hmpos
      · -- a = 1
        have h1 : (1 : Nat) &&& (2 ^ w - 1) = 1 % 2 ^ w :=
          Nat.and_pow_two_sub_one_eq_mod 1 w
        have hwpos : 1 < 2 ^ w := by omega
        have ha1 : a = 1 := by omega
        constructor
        · intro _
          exact ⟨0, by omega⟩
        · intro _
          rw [ha1, h1, Nat.mod_eq_of_lt hwpos]
      · -- a = 2m + 1 with m ≥ 1: a & -a = 1 ≠ a
        have hw1 : 1 ≤ w := by
          by_contra h
          interval_cases w <;> omega
        obtain ⟨w', rfl⟩ : ∃ w', w = w' + 1 := ⟨w - 1, by omega⟩
        have hpow : 2 ^ (w' + 1) = 2 * 2 ^ w' := by rw [pow_succ]; ring
        have hmlt : m < 2 ^ w' := by omega
        have hland : a &&& (2 ^ (w' + 1) - a) = 1 := by
          have e1 : a = 2 * m + Bool.toNat true := by omega
          have e2 : 2 ^ (w' + 1) - a
              = 2 * ((2 ^ w' - 1) - m) + Bool.toNat true := by omega
          have h := land_bit true true m ((2 ^ w' - 1) - m)
          rw [land_compl_self w' m hmlt] at h
          rw [← e1, ← e2] at h
          rw [h]
          rfl
        constructor
        · intro h
          omega
        · rintro ⟨k, hk⟩
          rcases Nat.eq_zero_or_pos k with rfl | hkpos
          · exfalso
            simp at hk
            omega
          · exfalso
            have hpk : 2 ^ k = 2 * 2 ^ (k - 1) := by
              conv_lhs => rw [show k = (k - 1) + 1 by omega]
              rw [pow_succ]
              ring
            omega

/-! ## Ring-buffer lemmas -/

theorem goCopy_length {α : Type} (dst src : List α) :
    (goCopy dst src).length = dst.length := by
  unfold goCopy
  simp only [List.length_append, List.length_take, List.length_drop]
  omega

theorem goCopy_of_le {α : Type} (dst src : List α) (h : src.length ≤ dst.length) :
    goCopy dst src = src ++ dst.drop src.length := by
  unfold goCopy
  rw [min_eq_right h, List.take_length]

theorem QInv.cap_pos {α : Type} {ms0 : Nat} {q : Queue α} {l : List α}
    (hinv : QInv ms0 q l) : 0 < q.items.length := by
  obtain ⟨⟨p, hp⟩, -⟩ := hinv
  rw [hp]
  exact Nat.pos_pow_of_pos p (by omega)

/-- The live window when it does not wrap: the slice `items[start : start+count]`
is exactly the abstract contents. -/
theorem window_contiguous {α : Type} {ms0 : Nat} {q : Queue α} {l : List α}
    (hinv : QInv ms0 q l) (hle : q.start + q.count ≤ q.items.length) :
    (q.items.drop q.start).take q.count = l.map some := by
  obtain ⟨hpow, hmspow, hqms, hmsle, hcnt, hcle, hslt, he, hcontent⟩ := hinv
  apply List.ext_getElem
  · simp only [List.length_take, List.length_drop, List.length_map]
    omega
  · intro i h1 h2
    have hi : i < l.length := by simpa using h2
    have hilt : q.start + i < q.items.length := by omega
    rw [List.getElem_take, List.getElem_drop, List.getElem_map]
    have hc := hcontent i hi
    rw [Nat.mod_eq_of_lt hilt] at hc
    rw [List.getD_eq_getElem q.items none hilt] at hc
    rw [hc]
    rfl

/-- The live window when it wraps: the tail slice `items[start:]` holds the
first `cap - start` abstract items. -/
theorem window_wrap_head {α : Type} {ms0 : Nat} {q : Queue α} {l : List α}
    (hinv : QInv ms0 q l) (hge : q.items.length ≤ q.start + q.count) :
    q.items.drop q.start = (l.take (q.items.length - q.start)).map some := by
  obtain ⟨hpow, hmspow, hqms, hmsle, hcnt, hcle, hslt, he, hcontent⟩ := hinv
  apply List.ext_getElem
  · simp only [List.length_drop, List.length_map, List.length_take]
    omega
  · intro i h1 h2
    have hi : i < l.length := by
      simp only [List.length_drop] at h1
      omega
    have hilt : q.start + i < q.items.length := by
      simp only [List.length_drop] at h1
      omega
    rw [List.getElem_drop, List.getElem_map, List.getElem_take]
    have hc := hcontent i hi
    rw [Nat.mod_eq_of_lt hilt] at hc
    rw [List.getD_eq_getElem q.items none hilt] at hc
    rw [hc]
    rfl

/-- The live window when it wraps: the head slice `items[:end]` holds the
remaining abstract items. -/
theorem window_wrap_tail {α : Type} {ms0 : Nat} {q : Queue α} {l : List α}
    (hinv : QInv ms0 q l) (hge : q.items.length ≤ q.start + q.count) :
    q.items.take (q.start + q.count - q.items.length)
      = (l.drop (q.items.length - q.start)).map some := by
  obtain ⟨hpow, hmspow, hqms, hmsle, hcnt, hcle, hslt, he, hcontent⟩ := hinv
  apply List.ext_getElem
  · simp only [List.length_take, List.length_map, List.length_drop]
    omega
  · intro j h1 h2
    have hjl : j < q.start + q.count - q.items.length := by
      simp only [List.length_take] at h1
      omega
    have hjcap : j < q.items.length := by omega
    have hi : q.items.length - q.start + j < l.length := by omega
    rw [List.getElem_take, List.getElem_map, List.getElem_drop]
    have hc := hcontent (q.items.length - q.start + j) hi
    have hmod : (q.start + (q.items.length - q.start + j)) % q.items.length
        = j := by
      have : q.start + (q.items.length - q.start + j)
          = q.items.length + j := by omega
      rw [this, Nat.add_mod_left, Nat.mod_eq_of_lt hjcap]
    rw [hmod] at hc
    rw [List.getD_eq_getElem q.items none hjcap] at hc
    rw [hc]
    rfl

/-- `resize` always reallocates to exactly `2 * count` slots. -/
theorem resize_length {α : Type} (q : Queue α) :
    q.resize.items.length = 2 * q.count := by
  unfold Queue.resize
  simp only
  split
  · rw [goCopy_length]
    simp [Nat.shiftLeft_eq]
    ring
  · simp only [List.length_append, List.length_take, goCopy_length,
      List.length_drop, List.length_replicate, Nat.shiftLeft_eq, pow_one]
    omega

/-- What `resize` does to the contents, under the invariant: the live window is
compacted to the front of a fresh `2 * count`-slot buffer. -/
theorem resize_items {α : Type} {ms0 : Nat} {q : Queue α} {l : List α}
    (hinv : QInv ms0 q l) (hc : 1 ≤ q.count) :
    q.resize.items = l.map some ++ List.replicate q.count none := by
  obtain ⟨hpow, hmspow, hqms, hmsle, hcnt, hcle, hslt, he, hcontent⟩ := hinv
  have hshift : q.count <<< 1 = 2 * q.count := by
    rw [Nat.shiftLeft_eq]
    ring
  unfold Queue.resize
  simp only [hshift]
  split
  · -- contiguous window: start < end
    rename_i hlt
    have hnw : q.start + q.count < q.items.length := by
      rcases Nat.lt_or_ge (q.start + q.count) q.items.length with h | h
      · exact h
      · exfalso
        have : q.end_ = q.start + q.count - q.items.length := by
          rw [he]
          have h2 : q.start + q.count - q.items.length < q.items.length := by
            omega
          rw [Nat.mod_eq_sub_mod h, Nat.mod_eq_of_lt h2]
        omega
    have heq : q.end_ = q.start + q.count := by
      rw [he, Nat.mod_eq_of_lt hnw]
    have hwin := window_contiguous
      ⟨hpow, hmspow, hqms, hmsle, hcnt, hcle, hslt, he, hcontent⟩
      (le_of_lt hnw)
    rw [heq]
    have : q.start + q.count - q.start = q.count := by omega
    rw [this, hwin]
    have hlen : (l.map some).length ≤ (List.replicate (2 * q.count)
        (none : Option α)).length := by
      simp only [List.length_map, List.length_replicate]
      omega
    rw [goCopy_of_le _ _ hlen]
    congr 1
    rw [List.drop_replicate]
    congr 1
    simp only [List.length_map]
    omega
  · -- wrapped window: start >= end
    rename_i hge
    have hwr : q.items.length ≤ q.start + q.count := by
      rcases Nat.lt_or_ge (q.start + q.count) q.items.length with h | h
      · exfalso
        have : q.end_ = q.start + q.count := by
          rw [he, Nat.mod_eq_of_lt h]
        omega
      · exact h
    have hhead := window_wrap_head
      ⟨hpow, hmspow, hqms, hmsle, hcnt, hcle, hslt, he, hcontent⟩ hwr
    have htail := window_wrap_tail
      ⟨hpow, hmspow, hqms, hmsle, hcnt, hcle, hslt, he, hcontent⟩ hwr
    have hdlen : (q.items.drop q.start).length = q.items.length - q.start := by
      simp
    have hn : min (List.replicate (2 * q.count) (none : Option α)).length
        (q.items.drop q.start).length = q.items.length - q.start := by
      simp only [List.length_replicate, hdlen]
      omega
    have hheadlen : (q.items.drop q.start).length ≤
        (List.replicate (2 * q.count) (none : Option α)).length := by
      simp only [List.length_replicate, hdlen]
      omega
    have hfirst : goCopy (List.replicate (2 * q.count) (none : Option α))
        (q.items.drop q.start)
        = (l.take (q.items.length - q.start)).map some
          ++ List.replicate (2 * q.count - (q.items.length - q.start)) none := by
      rw [goCopy_of_le _ _ hheadlen, hhead]
      congr 1
      rw [List.drop_replicate]
      congr 1
      simp only [List.length_map, List.length_take]
      omega
    rw [hn, hfirst]
    have hheadlen2 : ((l.take (q.items.length - q.start)).map some).length
        = q.items.length - q.start := by
      simp only [List.length_map, List.length_take]
      omega
    rw [List.take_left' hheadlen2, List.drop_left' hheadlen2]
    have hends : q.end_ = q.start + q.count - q.items.length := by
      rw [he]
      rcases Nat.eq_or_lt_of_le hwr with h | h
      · rw [← h]
        simp
      · have h2 : q.start + q.count - q.items.length < q.items.length := by
          omega
        rw [Nat.mod_eq_sub_mod hwr, Nat.mod_eq_of_lt h2]
    have htail2 : q.items.take q.end_
        = (l.drop (q.items.length - q.start)).map some := by
      rw [hends]
      exact htail
    rw [htail2]
    have htaillen : ((l.drop (q.items.length - q.start)).map some).length
        ≤ (List.replicate (2 * q.count - (q.items.length - q.start))
            (none : Option α)).length := by
      simp only [List.length_map, List.length_drop, List.length_replicate]
      omega
    rw [goCopy_of_le _ _ htaillen]
    rw [List.drop_replicate]
    rw [← List.append_assoc, ← List.map_append, List.take_append_drop]
    congr 2
    simp only [List.length_map, List.length_drop]
    omega

/-- After `resize`, the invariant holds again (capacity `2 * count`), provided
the new capacity is a power of two at least the minimum size — which the two
call sites (grow-on-full, shrink-at-quarter) guarantee. -/
theorem resize_qinv {α : Type} {ms0 : Nat} {q : Queue α} {l : List α}
    (hinv : QInv ms0 q l) (hc : 1 ≤ q.count)
    (hms : ms0 ≤ 2 * q.count) (hpow2 : ∃ p, 2 * q.count = 2 ^ p) :
    QInv ms0 q.resize l := by
  have hitems := resize_items hinv hc
  have hlen := resize_length q
  obtain ⟨hpow, hmspow, hqms, hmsle, hcnt, hcle, hslt, he, hcontent⟩ := hinv
  have hstart : q.resize.start = 0 := rfl
  have hend : q.resize.end_ = q.count := rfl
  have hcount : q.resize.count = q.count := rfl
  have hmsf : q.resize.ms = q.ms := rfl
  refine ⟨?_, hmspow, ?_, ?_, ?_, ?_, ?_, ?_, ?_⟩
  · rw [hlen]; exact hpow2
  · rw [hmsf]; exact hqms
  · rw [hmsf, hlen, hqms]; exact hms
  · rw [hcount]; exact hcnt
  · rw [hcount, hlen]; omega
  · rw [hstart, hlen]; omega
  · rw [hstart, hend, hcount, hlen, Nat.zero_add, Nat.mod_eq_of_lt (by omega)]
  · intro i hi
    have hil : i < q.count := by omega
    have hi2 : i < q.resize.items.length := by rw [hlen]; omega
    rw [hstart, Nat.zero_add, Nat.mod_eq_of_lt (by rw [hlen]; omega)]
    rw [List.getD_eq_getElem _ none hi2]
    have hmap : i < (l.map some).length := by
      simp only [List.length_map]
      exact hi
    rw [List.getElem_of_eq hitems hi2, List.getElem_append_left hmap,
      List.getElem_map]
    rfl

/-- Inserting into a non-full queue (the tail of `Push` after any resize)
preserves the invariant, appending the item to the abstract contents. -/
theorem push_insert_qinv {α : Type} {ms0 : Nat} {q : Queue α} {l : List α}
    (hinv : QInv ms0 q l) (hlt : q.count < q.items.length) (a : α) :
    QInv ms0
      { q with
        items := q.items.set q.end_ (some a),
        end_ := (q.end_ + 1) &&& (q.items.length - 1),
        count := q.count + 1 }
      (l ++ [a]) := by
  obtain ⟨⟨p, hp⟩, hmspow, hqms, hmsle, hcnt, hcle, hslt, he, hcontent⟩ := hinv
  have hcap : 0 < q.items.length := by
    rw [hp]
    exact Nat.pos_pow_of_pos p (by omega)
  have hendlt : q.end_ < q.items.length := by
    rw [he]
    exact Nat.mod_lt _ hcap
  refine ⟨?_, hmspow, hqms, ?_, ?_, ?_, ?_, ?_, ?_⟩
  · exact ⟨p, by rw [List.length_set]; exact hp⟩
  · show q.ms ≤ (q.items.set q.end_ (some a)).length
    rw [List.length_set]
    exact hmsle
  · show q.count + 1 = (l ++ [a]).length
    simp only [List.length_append, List.length_singleton]
    omega
  · show q.count + 1 ≤ (q.items.set q.end_ (some a)).length
    rw [List.length_set]
    omega
  · show q.start < (q.items.set q.end_ (some a)).length
    rw [List.length_set]
    exact hslt
  · show (q.end_ + 1) &&& (q.items.length - 1)
        = (q.start + (q.count + 1)) % (q.items.set q.end_ (some a)).length
    rw [List.length_set, hp, Nat.and_pow_two_sub_one_eq_mod]
    have he2 : q.end_ = (q.start + q.count) % 2 ^ p := by rw [he, hp]
    rw [he2, Nat.mod_add_mod]
    have harith : q.start + q.count + 1 = q.start + (q.count + 1) := by omega
    rw [harith]
  · intro i hi
    show (q.items.set q.end_ (some a)).getD
        ((q.start + i) % (q.items.set q.end_ (some a)).length) none
      = some ((l ++ [a]).get ⟨i, hi⟩)
    simp only [List.length_set]
    simp only [List.length_append, List.length_singleton] at hi
    have hcnt' : q.count = l.length := hcnt
    by_cases hil : i < l.length
    · -- untouched slot
      have hislt : (q.start + i) % q.items.length < q.items.length :=
        Nat.mod_lt _ hcap
      have hne : q.end_ ≠ (q.start + i) % q.items.length := by
        intro hcontra
        rw [he] at hcontra
        have hmeq : Nat.ModEq q.items.length (q.start + q.count) (q.start + i) := by
          unfold Nat.ModEq
          rw [hcontra]
        have hmeq2 : Nat.ModEq q.items.length q.count i :=
          Nat.ModEq.add_left_cancel' q.start hmeq
        have : q.count % q.items.length = i % q.items.length := hmeq2
        rw [Nat.mod_eq_of_lt hlt, Nat.mod_eq_of_lt (by omega)] at this
        omega
      rw [List.getD_eq_getElem _ none (by rw [List.length_set]; exact hislt)]
      rw [List.getElem_set_ne hne]
      have hc2 := hcontent i hil
      rw [List.getD_eq_getElem _ none hislt] at hc2
      rw [hc2]
      congr 1
      exact (List.getElem_append_left hil).symm
    · -- the freshly written slot: i = l.length
      have hieq : i = l.length := by omega
      subst hieq
      have hslot : (q.start + l.length) % q.items.length = q.end_ := by
        rw [he, hcnt']
      rw [hslot]
      rw [List.getD_eq_getElem _ none (by rw [List.length_set]; exact hendlt)]
      rw [List.getElem_set_self]
      congr 1
      exact (List.getElem_concat_length l a l.length rfl (by simp)).symm

/-- `Push` preserves the invariant, appending the item. -/
theorem push_qinv {α : Type} {ms0 : Nat} {q : Queue α} {l : List α}
    (hinv : QInv ms0 q l) (a : α) : QInv ms0 (q.Push a) (l ++ [a]) := by
  have hcap : 0 < q.items.length := hinv.cap_pos
  unfold Queue.Push
  by_cases hfull : q.count = q.items.length
  · have hc1 : 1 ≤ q.count := by omega
    have hms2 : ms0 ≤ 2 * q.count := by
      obtain ⟨-, -, hqms, hmsle, -⟩ := hinv
      omega
    have hpow2 : ∃ p, 2 * q.count = 2 ^ p := by
      obtain ⟨⟨p, hp⟩, -⟩ := hinv
      exact ⟨p + 1, by rw [hfull, hp, pow_succ]; ring⟩
    have hinv2 := resize_qinv hinv hc1 hms2 hpow2
    have hlt2 : q.resize.count < q.resize.items.length := by
      rw [resize_length]
      show q.count < 2 * q.count
      omega
    simp only [if_pos hfull]
    exact push_insert_qinv hinv2 hlt2 a
  · have hlt : q.count < q.items.length := by
      obtain ⟨-, -, -, -, -, hcle, -⟩ := hinv
      omega
    simp only [if_neg hfull]
    exact push_insert_qinv hinv hlt a

/-- `Pop` on an empty queue reports `found = false` and does not change the
queue at all. -/
theorem pop_empty {α : Type} (q : Queue α) (h : q.count = 0) :
    q.Pop = ((none, false), q) := by
  unfold Queue.Pop
  rw [if_pos h]

/-- Unfolded form of `Pop` on a non-empty queue. -/
theorem pop_eq {α : Type} (q : Queue α) (h : ¬ q.count = 0) :
    q.Pop = ((q.items.getD q.start none, true),
      if (q.count - 1) <<< 2 = (q.items.set q.start none).length
          ∧ q.ms < (q.items.set q.start none).length
        then Queue.resize
          { q with
            items := q.items.set q.start none,
            start := (q.start + 1) &&& ((q.items.set q.start none).length - 1),
            count := q.count - 1 }
        else
          { q with
            items := q.items.set q.start none,
            start := (q.start + 1) &&& ((q.items.set q.start none).length - 1),
            count := q.count - 1 }) := by
  unfold Queue.Pop
  rw [if_neg h]

/-- `Pop` on a non-empty queue returns the oldest item and preserves the
invariant on the remaining contents. -/
theorem pop_qinv {α : Type} {ms0 : Nat} {q : Queue α} {x : α} {xs : List α}
    (hinv : QInv ms0 q (x :: xs)) :
    (q.Pop).1 = (some x, true) ∧ QInv ms0 (q.Pop).2 xs := by
  have hcap : 0 < q.items.length := hinv.cap_pos
  obtain ⟨⟨p, hp⟩, hmspow, hqms, hmsle, hcnt, hcle, hslt, he, hcontent⟩ := hinv
  have hcnt' : q.count = xs.length + 1 := by
    rw [hcnt]
    rfl
  have hne0 : ¬ q.count = 0 := by omega
  have hitem : q.items.getD q.start none = some x := by
    have hc0 := hcontent 0 (by simp)
    simpa [Nat.mod_eq_of_lt hslt] using hc0
  have hq1inv : QInv ms0
      { q with
        items := q.items.set q.start none,
        start := (q.start + 1) &&& ((q.items.set q.start none).length - 1),
        count := q.count - 1 } xs := by
    refine ⟨⟨p, by rw [List.length_set]; exact hp⟩, hmspow, hqms, ?_, ?_, ?_, ?_, ?_, ?_⟩
    · show q.ms ≤ (q.items.set q.start none).length
      rw [List.length_set]
      exact hmsle
    · show q.count - 1 = xs.length
      omega
    · show q.count - 1 ≤ (q.items.set q.start none).length
      rw [List.length_set]
      omega
    · show (q.start + 1) &&& ((q.items.set q.start none).length - 1)
        < (q.items.set q.start none).length
      rw [List.length_set, hp, Nat.and_pow_two_sub_one_eq_mod]
      exact Nat.mod_lt _ (by rw [← hp]; exact hcap)
    · show q.end_ = (((q.start + 1) &&& ((q.items.set q.start none).length - 1))
          + (q.count - 1)) % (q.items.set q.start none).length
      rw [List.length_set, hp, Nat.and_pow_two_sub_one_eq_mod, Nat.mod_add_mod]
      have harith : q.start + 1 + (q.count - 1) = q.start + q.count := by omega
      rw [harith, ← hp, ← he]
    · intro i hi
      show (q.items.set q.start none).getD
          ((((q.start + 1) &&& ((q.items.set q.start none).length - 1)) + i)
            % (q.items.set q.start none).length) none
        = some (xs.get ⟨i, hi⟩)
      rw [List.length_set, hp, Nat.and_pow_two_sub_one_eq_mod, Nat.mod_add_mod]
      have hip1 : 1 + i < 2 ^ p := by omega
      have hidx : (q.start + 1 + i) % 2 ^ p < 2 ^ p :=
        Nat.mod_lt _ (by omega)
      have hne : q.start ≠ (q.start + 1 + i) % 2 ^ p := by
        intro hcontra
        have hmeq : Nat.ModEq (2 ^ p) (q.start + 0) (q.start + (1 + i)) := by
          unfold Nat.ModEq
          rw [Nat.add_zero, Nat.mod_eq_of_lt (by omega), hcontra]
          congr 1
          omega
        have hmeq2 : Nat.ModEq (2 ^ p) 0 (1 + i) :=
          Nat.ModEq.add_left_cancel' q.start hmeq
        have h0 : 0 % 2 ^ p = (1 + i) % 2 ^ p := hmeq2
        rw [Nat.zero_mod, Nat.mod_eq_of_lt hip1] at h0
        omega
      rw [List.getD_eq_getElem _ none (by rw [List.length_set, hp]; exact hidx)]
      rw [List.getElem_set_ne hne]
      have hc2 := hcontent (i + 1) (by simp; omega)
      have hidxeq : (q.start + (i + 1)) % q.items.length
          = (q.start + 1 + i) % 2 ^ p := by
        rw [hp]
        congr 1
        omega
      rw [hidxeq] at hc2
      rw [List.getD_eq_getElem _ none (by rw [hp]; exact hidx)] at hc2
      rw [hc2]
      rfl
  rw [pop_eq q hne0]
  refine ⟨by rw [hitem], ?_⟩
  show QInv ms0 (if _ then _ else _) xs
  split
  · rename_i hsh
    obtain ⟨hsh1, hsh2⟩ := hsh
    rw [List.length_set] at hsh1 hsh2
    have hsh4 : (q.count - 1) * 4 = q.items.length := by
      rw [Nat.shiftLeft_eq] at hsh1
      norm_num at hsh1
      exact hsh1
    have hc1 : 1 ≤ q.count - 1 := by
      rcases Nat.eq_zero_or_pos (q.count - 1) with h0 | h0
      · omega
      · exact h0
    obtain ⟨r, hr⟩ := hmspow
    have hp2 : 2 ≤ p := by
      have h4 : 4 ≤ 2 ^ p := by omega
      by_contra hcon
      interval_cases p <;> omega
    have hpk : 2 ^ p = 2 * 2 ^ (p - 1) := by
      conv_lhs => rw [show p = (p - 1) + 1 by omega]
      rw [pow_succ]
      ring
    have h2c : 2 * (q.count - 1) = 2 ^ (p - 1) := by omega
    have hrle : r < p := by
      have := hsh2
      rw [hqms, hr, hp] at this
      exact (Nat.pow_lt_pow_iff_right (by omega)).mp this
    have hmsle2 : ms0 ≤ 2 * (q.count - 1) := by
      rw [h2c, hr]
      exact Nat.pow_le_pow_right (by omega) (by omega)
    exact resize_qinv hq1inv hc1 hmsle2 ⟨p - 1, h2c⟩
  · exact hq1inv

/-- A fresh queue of power-of-two minimum size satisfies the invariant with
empty contents. -/
theorem mkQueue_qinv (α : Type) (p : Nat) :
    QInv (2 ^ p) (mkQueue α (2 ^ p)) ([] : List α) := by
  refine ⟨⟨p, by simp [mkQueue]⟩, ⟨p, rfl⟩, rfl, ?_, rfl, ?_, ?_, ?_, ?_⟩
  · simp [mkQueue]
  · simp [mkQueue]
  · simp [mkQueue]
  · simp [mkQueue]
  · intro i hi
    simp at hi

/-- Simulation: running any operation sequence on the ring buffer produces the
same pop results as the plain-list FIFO, and re-establishes the invariant. -/
theorem runQ_sim {α : Type} {ms0 : Nat} :
    ∀ (ops : List (QOp α)) (q : Queue α) (l : List α), QInv ms0 q l →
      (runQ q ops).1 = (runSpec l ops).1 ∧
      QInv ms0 (runQ q ops).2 (runSpec l ops).2 := by
  intro ops
  induction ops with
  | nil => exact fun q l hinv => ⟨rfl, hinv⟩
  | cons op ops ih =>
    intro q l hinv
    cases op with
    | push a =>
      have := ih (q.Push a) (l ++ [a]) (push_qinv hinv a)
      exact this
    | pop =>
      cases l with
      | nil =>
        have hcnt : q.count = 0 := by
          obtain ⟨-, -, -, -, hcnt, -⟩ := hinv
          simpa using hcnt
        have hpe := pop_empty q hcnt
        have := ih q [] hinv
        simp only [runQ, runSpec, hpe, specPop]
        exact ⟨by rw [this.1], this.2⟩
      | cons x xs =>
        obtain ⟨h1, h2⟩ := pop_qinv hinv
        have := ih (q.Pop).2 xs h2
        simp only [runQ, runSpec, specPop]
        exact ⟨by rw [h1, this.1], this.2⟩

/-- Every reachable queue state satisfies the invariant for some contents
list, namely the one computed by the plain-list FIFO. -/
theorem reach_qinv {α : Type} {p : Nat} {q : Queue α}
    (hreach : ReachQ α (2 ^ p) q) :
    ∃ l, QInv (2 ^ p) q l := by
  obtain ⟨ops, hops⟩ := hreach
  refine ⟨(runSpec [] ops).2, ?_⟩
  rw [hops]
  exact (runQ_sim ops (mkQueue α (2 ^ p)) [] (mkQueue_qinv α p)).2

/-- C1.  The `Queue` is FIFO: for every sequence of interleaved `Push`/`Pop`
operations starting from a freshly constructed queue (minimum size `2 ^ p`,
i.e. any size accepted by `NewQueue`), the results of all `Pop`s — both the
items of successful pops, in order, and the `found = false` results on empty
pops — coincide with those of the plain-list FIFO reference, across all grow
and shrink resizes; and `Pop` on an empty queue returns `(nil, false)` without
modifying the queue. -/
theorem claimC1_queue_fifo (α : Type) (p : Nat) (ops : List (QOp α)) :
    (runQ (mkQueue α (2 ^ p)) ops).1 = (runSpec ([] : List α) ops).1 ∧
    ∀ q : Queue α, q.count = 0 → q.Pop = ((none, false), q) := by
  refine ⟨(runQ_sim ops (mkQueue α (2 ^ p)) [] (mkQueue_qinv α p)).1, ?_⟩
  intro q hq
  exact pop_empty q hq

/-- Witness for C1 at a concrete run: push 3, push 7, pop, pop, pop. -/
theorem claimC1_queue_fifo_witness :
    (runQ (mkQueue Nat (2 ^ 0))
        [QOp.push 3, QOp.push 7, QOp.pop, QOp.pop, QOp.pop]).1
      = (runSpec ([] : List Nat)
        [QOp.push 3, QOp.push 7, QOp.pop, QOp.pop, QOp.pop]).1 ∧
    (mkQueue Nat 4).Pop = ((none, false), mkQueue Nat 4) :=
  ⟨(claimC1_queue_fifo Nat 0
      [QOp.push 3, QOp.push 7, QOp.pop, QOp.pop, QOp.pop]).1,
    (claimC1_queue_fifo Nat 0 []).2 (mkQueue Nat 4) rfl⟩

/-- C3.  Structural invariants of every reachable queue state: the count never
exceeds the capacity, the capacity is a power of two and at least the minimum
size; and immediately after any resize — the grow inside a `Push` on a full
queue, or the shrink inside a `Pop` that leaves the count at a quarter of a
capacity above the minimum — the capacity is `max (2 * count) ms`, for the
count at resize time. -/
theorem claimC3_capacity_invariants (α : Type) (p : Nat) (q : Queue α)
    (hreach : ReachQ α (2 ^ p) q) :
    (q.count ≤ q.items.length ∧ (∃ k, q.items.length = 2 ^ k) ∧
      2 ^ p ≤ q.items.length) ∧
    (∀ a, q.count = q.items.length →
      (q.Push a).items.length = max (2 * q.count) (2 ^ p)) ∧
    ((1 ≤ q.count ∧ (q.count - 1) * 4 = q.items.length ∧
        2 ^ p < q.items.length) →
      (q.Pop).2.items.length = max (2 * (q.count - 1)) (2 ^ p)) := by
  obtain ⟨l, hinv⟩ := reach_qinv hreach
  obtain ⟨⟨k, hk⟩, hmspow, hqms, hmsle, hcnt, hcle, hslt, he, hcontent⟩ := hinv
  have hqms' : q.ms = 2 ^ p := hqms
  refine ⟨⟨hcle, ⟨k, hk⟩, by omega⟩, ?_, ?_⟩
  · -- grow on a full push
    intro a hfull
    have hcap : 0 < q.items.length := by
      rw [hk]
      exact Nat.pos_pow_of_pos k (by omega)
    unfold Queue.Push
    rw [if_pos hfull]
    show (q.resize.items.set q.resize.end_ (some a)).length
        = max (2 * q.count) (2 ^ p)
    rw [List.length_set, resize_length]
    have : 2 ^ p ≤ 2 * q.count := by omega
    omega
  · -- shrink inside a pop
    rintro ⟨hc1, hq4, hcapgt⟩
    have hne0 : ¬ q.count = 0 := by omega
    rw [pop_eq q hne0]
    have hcond : (q.count - 1) <<< 2 = (q.items.set q.start none).length
        ∧ q.ms < (q.items.set q.start none).length := by
      constructor
      · rw [Nat.shiftLeft_eq, List.length_set]
        norm_num
        omega
      · rw [List.length_set]
        omega
    rw [if_pos hcond]
    rw [resize_length]
    show 2 * (q.count - 1) = max (2 * (q.count - 1)) (2 ^ p)
    -- ms = 2^p < cap = 2^k and 4*(count-1) = cap force ms ≤ 2*(count-1)
    have hplt : p < k := by
      rw [hk] at hcapgt
      exact (Nat.pow_lt_pow_iff_right (by omega)).mp hcapgt
    have hk2 : 2 ≤ k := by
      have h4 : 4 ≤ 2 ^ k := by omega
      by_contra hcon
      interval_cases k <;> omega
    have hpk : 2 ^ k = 2 * 2 ^ (k - 1) := by
      conv_lhs => rw [show k = (k - 1) + 1 by omega]
      rw [pow_succ]
      ring
    have h2c : 2 * (q.count - 1) = 2 ^ (k - 1) := by omega
    have : 2 ^ p ≤ 2 * (q.count - 1) := by
      rw [h2c]
      exact Nat.pow_le_pow_right (by omega) (by omega)
    omega

/-- Witness for C3 at a concrete reachable state. -/
theorem claimC3_capacity_invariants_witness :
    (mkQueue Nat 1).count ≤ (mkQueue Nat 1).items.length ∧
    (∃ k, (mkQueue Nat 1).items.length = 2 ^ k) ∧
    2 ^ 0 ≤ (mkQueue Nat 1).items.length :=
  (claimC3_capacity_invariants Nat 0 (mkQueue Nat 1) ⟨[], rfl⟩).1

/-- C8.  `NewQueue minBufferSize` panics exactly when the requested minimum
size is zero or not a power of two (for any value representable as a
non-negative 64-bit integer); otherwise it returns an empty queue whose
backing array has length `minBufferSize`. -/
theorem claimC8_newqueue_guard (α : Type) (ms : Nat) (hms : ms < 2 ^ 64) :
    (NewQueue α ms = none ↔ (ms = 0 ∨ ¬ ∃ k, ms = 2 ^ k)) ∧
    (∀ q, NewQueue α ms = some q →
      q.items = List.replicate ms none ∧ q.items.length = ms ∧
      q.count = 0 ∧ q.ms = ms) := by
  have hmain : (ms = 0 ∨ ms &&& ((2 ^ 64 - ms) % 2 ^ 64) ≠ ms)
      ↔ (ms = 0 ∨ ¬ ∃ k, ms = 2 ^ k) := by
    rcases Nat.eq_zero_or_pos ms with rfl | hpos
    · simp
    · have hmod : (2 ^ 64 - ms) % 2 ^ 64 = 2 ^ 64 - ms := by
        apply Nat.mod_eq_of_lt
        omega
      rw [hmod]
      constructor
      · rintro (rfl | hne)
        · omega
        · right
          intro hex
          exact hne ((land_two_pow_sub_iff ms 64 hpos hms).mpr hex)
      · rintro (rfl | hnp)
        · omega
        · right
          intro heq
          exact hnp ((land_two_pow_sub_iff ms 64 hpos hms).mp heq)
  have hiff : NewQueue α ms = none
      ↔ (ms = 0 ∨ ms &&& ((2 ^ 64 - ms) % 2 ^ 64) ≠ ms) := by
    unfold NewQueue
    by_cases hg : ms = 0 ∨ ms &&& ((2 ^ 64 - ms) % 2 ^ 64) ≠ ms
    · rw [if_pos hg]
      exact iff_of_true rfl hg
    · rw [if_neg hg]
      exact iff_of_false (fun h => Option.noConfusion h) hg
  constructor
  · rw [hiff]
    exact hmain
  · intro q hq
    unfold NewQueue at hq
    by_cases hguard : ms = 0 ∨ ms &&& ((2 ^ 64 - ms) % 2 ^ 64) ≠ ms
    · rw [if_pos hguard] at hq
      exact Option.noConfusion hq
    · rw [if_neg hguard] at hq
      have hq' : mkQueue α ms = q := by
        injection hq
      subst hq'
      refine ⟨rfl, by simp [mkQueue], rfl, rfl⟩

/-- Witness for C8: size 12 is rejected, size 16 accepted. -/
theorem claimC8_newqueue_guard_witness :
    (NewQueue Nat 12 = none ↔ (12 = 0 ∨ ¬ ∃ k, (12 : Nat) = 2 ^ k)) ∧
    NewQueue Nat 0 = none :=
  ⟨(claimC8_newqueue_guard Nat 12 (by norm_num)).1,
    (claimC8_newqueue_guard Nat 0 (by norm_num)).1.mpr (Or.inl rfl)⟩

/-! ## Channel-system invariant -/

/-- The fresh channel system satisfies the invariant. -/
theorem chanInv_init (α : Type) (ms : Nat) : ChanInv (initChan α ms) := by
  refine ⟨[], 0, 0, ?_, ?_, rfl, rfl, ?_, ?_, ?_, ?_, ?_, rfl, rfl⟩
  · have h : (2 <<< 10 : Nat) = 2 ^ 11 := by decide
    show QInv (2 <<< 10) (mkQueue α (2 <<< 10)) []
    rw [h]
    exact mkQueue_qinv α 11
  · simp
  · intro h
    exact absurd rfl h
  · intro h
    rfl
  · intro h
    simp [initChan] at h
  · intro h1 h2
    simp [initChan] at h1
  · intro h
    simp [initChan] at h

/-- Every `ChanStep` preserves the channel-system invariant. -/
theorem chanInv_step {α : Type} {s s2 : ChanSys α}
    (hinv : ChanInv s) (hstep : ChanStep s s2) : ChanInv s2 := by
  obtain ⟨l, k, f, hq, hk, hpop, hdrop, hf, hout, hin, hinw, hwd, htc, hqc⟩ := hinv
  cases hstep with
  | push a hrx hlen =>
    refine ⟨l, k, f, hq, ?_, ?_, ?_, hf, hout, ?_, hinw, ?_, htc, hqc⟩
    · show k ≤ (s.pushed ++ [a]).length
      simp only [List.length_append, List.length_singleton]
      omega
    · show s.popped = (((s.pushed ++ [a]).take k).map fun x => (some x, true))
        ++ List.replicate f (none, false)
      rw [List.take_append_of_le_length hk]
      exact hpop
    · show (s.pushed ++ [a]).drop k
        = pendWith { s with rxQ := s.rxQ ++ [a], pushed := s.pushed ++ [a] } l
      rw [List.drop_append_of_le_length hk, hdrop]
      simp [pendWith]
    · intro h
      exact absurd (hin h).1 (by simp [hrx])
    · intro h
      exact absurd (hwd h).2.2 (by simp [hrx])
  | closeInput hrx =>
    refine ⟨l, k, f, hq, hk, hpop, ?_, hf, hout, ?_, hinw, ?_, htc, hqc⟩
    · rw [hdrop]
      rfl
    · intro h
      exact ⟨rfl, (hin h).2⟩
    · intro h
      exact ⟨(hwd h).1, (hwd h).2.1, rfl⟩
  | recvDirect a rest hw hie hrxq hop =>
    have hl : l = [] := hout hop
    subst hl
    refine ⟨[], k, f, hq, hk, hpop, ?_, hf, ?_, ?_, ?_, ?_, htc, hqc⟩
    · rw [hdrop]
      simp [pendWith, hrxq, hop]
    · intro h
      exact absurd h (by simp)
    · intro h
      simp [hie] at h
    · intro h
      simp [hie] at h
    · intro h
      simp [hw] at h
  | recvBuffer a rest b hw hie hrxq hop =>
    refine ⟨l ++ [a], k, f, push_qinv hq a, hk, hpop, ?_, hf, ?_, ?_, ?_, ?_,
      htc, hqc⟩
    · rw [hdrop]
      simp [pendWith, hrxq, hop]
    · intro h
      simp [hop] at h
    · intro h
      simp [hie] at h
    · intro h
      simp [hie] at h
    · intro h
      simp [hw] at h
  | recvClosedFinal hw hie hrxq hrxc hop =>
    have hl : l = [] := hout hop
    subst hl
    refine ⟨[], k, f, hq, hk, hpop, ?_, ?_, hout, ?_, ?_, ?_, rfl, rfl⟩
    · rw [hdrop]
      simp [pendWith, hrxq]
    · intro h0
      exact absurd (hf h0).2 (by simp [hw])
    · intro h
      exact ⟨hrxc, hrxq⟩
    · intro h1 h2
      rfl
    · intro h
      exact ⟨hop, hrxq, hrxc⟩
  | recvClosedBusy b hw hie hrxq hrxc hop =>
    refine ⟨l, k, f, hq, hk, hpop, ?_, hf, hout, ?_, ?_, ?_, htc, hqc⟩
    · rw [hdrop]
      simp [pendWith, hrxq]
    · intro h
      exact ⟨hrxc, hrxq⟩
    · intro h1 h2
      simp [hop] at h2
    · intro h
      exact hwd h
  | sendNext a v buf2 hw hop htxlen hpop2 =>
    -- ok = true means the buffer was non-empty
    rcases l with _ | ⟨x, xs⟩
    · exfalso
      have hcnt : s.buf.count = 0 := by
        obtain ⟨-, -, -, -, hcnt, -⟩ := hq
        simpa using hcnt
      rw [pop_empty s.buf hcnt] at hpop2
      have : (false : Bool) = true := by
        have := congrArg (fun r => r.1.2) hpop2
        simpa using this
      simp at this
    · obtain ⟨hfst, hq2⟩ := pop_qinv hq
      have hv : v = some x := by
        rw [hpop2] at hfst
        have := congrArg Prod.fst hfst
        simpa using this
      have hbuf2 : (s.buf.Pop).2 = buf2 := by rw [hpop2]
      rw [hbuf2] at hq2
      refine ⟨xs, k, f, hq2, hk, hpop, ?_, ?_, ?_, ?_, ?_, ?_, htc, hqc⟩
      · rw [hdrop]
        simp [pendWith, hop, hv]
      · intro h0
        exact absurd (hf h0).2 (by simp [hw])
      · intro h
        rw [hv] at h
        simp at h
      · intro h
        exact hin h
      · intro h1 h2
        rw [hv] at h2
        simp at h2
      · intro h
        simp [hw] at h
  | sendEmptyOpen a v buf2 hw hop htxlen hpop2 hie =>
    have hl : l = [] := by
      rcases l with _ | ⟨x, xs⟩
      · rfl
      · exfalso
        obtain ⟨hfst, -⟩ := pop_qinv hq
        rw [hpop2] at hfst
        have := congrArg (fun r => r.2) hfst
        simpa using this
    subst hl
    have hcnt : s.buf.count = 0 := by
      obtain ⟨-, -, -, -, hcnt, -⟩ := hq
      simpa using hcnt
    have hbuf2 : buf2 = s.buf := by
      rw [pop_empty s.buf hcnt] at hpop2
      have := congrArg (fun r => r.2) hpop2
      simpa using this.symm
    refine ⟨[], k, f, ?_, hk, hpop, ?_, ?_, ?_, ?_, ?_, ?_, htc, hqc⟩
    · show QInv (2 <<< 10) buf2 []
      rw [hbuf2]
      exact hq
    · rw [hdrop]
      simp [pendWith, hop]
    · intro h0
      exact absurd (hf h0).2 (by simp [hw])
    · intro h
      rfl
    · intro h
      simp [hie] at h
    · intro h
      simp [hie] at h
    · intro h
      simp [hw] at h
  | sendEmptyClosed a v buf2 hw hop htxlen hpop2 hie =>
    have hl : l = [] := by
      rcases l with _ | ⟨x, xs⟩
      · rfl
      · exfalso
        obtain ⟨hfst, -⟩ := pop_qinv hq
        rw [hpop2] at hfst
        have := congrArg (fun r => r.2) hfst
        simpa using this
    subst hl
    have hcnt : s.buf.count = 0 := by
      obtain ⟨-, -, -, -, hcnt, -⟩ := hq
      simpa using hcnt
    have hbuf2 : buf2 = s.buf := by
      rw [pop_empty s.buf hcnt] at hpop2
      have := congrArg (fun r => r.2) hpop2
      simpa using this.symm
    obtain ⟨hrxc, hrxq⟩ := hin hie
    refine ⟨[], k, f, ?_, hk, hpop, ?_, ?_, ?_, ?_, ?_, ?_, rfl, rfl⟩
    · show QInv (2 <<< 10) buf2 []
      rw [hbuf2]
      exact hq
    · rw [hdrop]
      simp [pendWith, hop, hrxq]
    · intro h0
      exact absurd (hf h0).2 (by simp [hw])
    · intro h
      rfl
    · intro h
      exact ⟨hrxc, hrxq⟩
    · intro h1 h2
      rfl
    · intro h
      exact ⟨rfl, hrxq, hrxc⟩
  | popItem v rest htxq =>
    have hf0 : f = 0 := by
      by_contra h0
      exact absurd htxq (by rw [(hf h0).1]; simp)
    subst hf0
    have hpend : s.pushed.drop k = v :: (rest ++ s.outPending.toList ++ l ++ s.rxQ) := by
      rw [hdrop]
      simp [pendWith, htxq]
    have hklt : k < s.pushed.length := by
      by_contra h0
      rw [List.drop_eq_nil_of_le (by omega)] at hpend
      exact List.noConfusion hpend
    have hcons : s.pushed.drop k = s.pushed[k] :: s.pushed.drop (k + 1) :=
      List.drop_eq_getElem_cons hklt
    rw [hcons] at hpend
    have hvk : s.pushed[k] = v := (List.cons.injEq _ _ _ _ ▸ hpend).1
    have htail : s.pushed.drop (k + 1)
        = rest ++ s.outPending.toList ++ l ++ s.rxQ :=
      (List.cons.injEq _ _ _ _ ▸ hpend).2
    refine ⟨l, k + 1, 0, hq, ?_, ?_, ?_, ?_, hout, hin, hinw, hwd, htc, hqc⟩
    · show k + 1 ≤ s.pushed.length
      omega
    · show s.popped ++ [(some v, true)]
        = ((s.pushed.take (k + 1)).map fun x => (some x, true))
          ++ List.replicate 0 (none, false)
      rw [hpop]
      simp only [List.replicate, List.append_nil]
      rw [List.take_succ]
      have hget : s.pushed[k]? = some v := by
        rw [List.getElem?_eq_getElem hklt, hvk]
      rw [hget]
      simp
    · show s.pushed.drop (k + 1) = pendWith _ l
      rw [htail]
      simp [pendWith]
    · intro h0
      exact absurd rfl h0
  | popClosed htxq htxc =>
    have hw : s.workerDone = true := htc ▸ htxc
    obtain ⟨hop, hrxq, hrxc⟩ := hwd hw
    have hl : l = [] := hout hop
    subst hl
    have hpend : pendWith s [] = [] := by
      simp [pendWith, htxq, hop, hrxq]
    have hkge : s.pushed.length ≤ k := by
      by_contra h0
      have hcons : s.pushed.drop k = s.pushed[k] :: s.pushed.drop (k + 1) :=
        List.drop_eq_getElem_cons (by omega)
      rw [hdrop, hpend] at hcons
      exact List.noConfusion hcons
    have hkeq : k = s.pushed.length := by omega
    refine ⟨[], k, f + 1, hq, hk, ?_, ?_, ?_, hout, hin, hinw, hwd, htc, hqc⟩
    · show s.popped ++ [(none, false)]
        = ((s.pushed.take k).map fun x => (some x, true))
          ++ List.replicate (f + 1) (none, false)
      rw [hpop, List.replicate_succ']
      simp [List.append_assoc]
    · show s.pushed.drop k = pendWith _ []
      rw [hdrop]
      simp [pendWith]
    · intro h0
      exact ⟨htxq, hw⟩

/-- The invariant holds along any step sequence. -/
theorem chanInv_steps {α : Type} {s s2 : ChanSys α} (hinv : ChanInv s)
    (hsteps : Relation.ReflTransGen ChanStep s s2) : ChanInv s2 := by
  induction hsteps with
  | refl => exact hinv
  | tail hs hstep ih => exact chanInv_step ih hstep

/-- Every reachable channel state satisfies the invariant. -/
theorem chanInv_reach {α : Type} {ms : Nat} {s : ChanSys α}
    (hreach : ChanReachable α ms s) : ChanInv s :=
  chanInv_steps (chanInv_init α ms) hreach

/-- No step changes the channel's capacity field. -/
theorem chanStep_ms {α : Type} {s s2 : ChanSys α} (hstep : ChanStep s s2) :
    s2.ms = s.ms := by
  cases hstep <;> rfl

/-- Reachable states carry the creation capacity. -/
theorem chanReach_ms {α : Type} {ms : Nat} {s : ChanSys α}
    (hreach : ChanReachable α ms s) : s.ms = ms := by
  induction hreach with
  | refl => rfl
  | tail hs hstep ih => rw [chanStep_ms hstep, ih]

/-- No step re-opens the input channel. -/
theorem chanStep_rxClosed {α : Type} {s s2 : ChanSys α} (hstep : ChanStep s s2)
    (h : s.rxClosed = true) : s2.rxClosed = true := by
  cases hstep <;> first
    | exact h
    | rfl
    | (rename_i hrx _; rw [hrx] at h; exact absurd h (by simp))

/-- C2.  FIFO and exactly-once delivery of `FlexibleChan`: in every reachable
state of the channel system (so in particular after any sequence of `Push`es
followed by a `Close` and a drain loop of `Pop`s), the results returned by
`Pop` are exactly the pushed items, in push order, each exactly once, followed
only by `(nil, ok=false)` results; and an `ok=false` result occurs only after
every pushed item has been delivered (no item pushed before `Close` is
dropped). -/
theorem claimC2_chan_fifo_exactly_once (α : Type) (ms : Nat) (s : ChanSys α)
    (hreach : ChanReachable α ms s) :
    ∃ k, k ≤ s.pushed.length ∧
      s.popped = ((s.pushed.take k).map fun a => (some a, true))
        ++ List.replicate (s.popped.length - k) (none, false) ∧
      (s.popped.length - k ≠ 0 → s.pushed.take k = s.pushed) := by
  obtain ⟨l, k, f, hq, hk, hpop, hdrop, hf, hout, hin, hinw, hwd, htc, hqc⟩ :=
    chanInv_reach hreach
  have hlen : s.popped.length = k + f := by
    rw [hpop]
    simp only [List.length_append, List.length_map, List.length_take,
      List.length_replicate]
    omega
  have hfk : s.popped.length - k = f := by omega
  refine ⟨k, hk, ?_, ?_⟩
  · rw [hfk]
    exact hpop
  · intro h0
    rw [hfk] at h0
    obtain ⟨htxq, hw⟩ := hf h0
    obtain ⟨hop, hrxq, -⟩ := hwd hw
    have hl : l = [] := hout hop
    have hpend : pendWith s l = [] := by
      simp [pendWith, htxq, hop, hrxq, hl]
    rw [hpend] at hdrop
    have : s.pushed.length ≤ k := by
      by_contra hcon
      have hcons : s.pushed.drop k = s.pushed[k] :: s.pushed.drop (k + 1) :=
        List.drop_eq_getElem_cons (by omega)
      rw [hdrop] at hcons
      exact List.noConfusion hcons
    exact List.take_of_length_le this

/-- Witness for C2, at the freshly created channel. -/
theorem claimC2_chan_fifo_exactly_once_witness :
    ∃ k, k ≤ (initChan Nat 1).pushed.length ∧
      (initChan Nat 1).popped
        = (((initChan Nat 1).pushed.take k).map fun a => (some a, true))
          ++ List.replicate ((initChan Nat 1).popped.length - k) (none, false) ∧
      ((initChan Nat 1).popped.length - k ≠ 0 →
        (initChan Nat 1).pushed.take k = (initChan Nat 1).pushed) :=
  claimC2_chan_fifo_exactly_once Nat 1 (initChan Nat 1) Relation.ReflTransGen.refl

/-! ## Drain termination -/

/-- From any invariant state with the input closed and the worker not yet
terminated, the drain schedule takes a genuine system step and decreases the
measure. -/
theorem drain_progress {α : Type} {s : ChanSys α} (hinv : ChanInv s)
    (hrx : s.rxClosed = true) (hqf : s.quitClosed = false) (hms : 0 < s.ms) :
    ChanStep s (drainStep s) ∧ chanMeasure (drainStep s) < chanMeasure s := by
  obtain ⟨l, k, f, hq, hk, hpop, hdrop, hf, hout, hin, hinw, hwd, htc, hqc⟩ := hinv
  have hw : s.workerDone = false := by rw [← hqc]; exact hqf
  have hnq : ¬ (s.quitClosed = true) := by simp [hqf]
  rcases htx : s.txQ with - | ⟨v, rest⟩
  · rcases hop : s.outPending with - | a
    · -- output disabled: the worker is at the input case
      have hl : l = [] := hout hop
      rcases hie : s.inEnabled with - | -
      · -- input and output both disabled: worker already done, contradiction
        exfalso
        have := hinw hie hop
        rw [hw] at this
        exact Bool.noConfusion this
      · rcases hrxq : s.rxQ with - | ⟨a, rest2⟩
        · -- empty rx, closed: finalize
          have hds : drainStep s
              = { s with
                  txClosed := true, quitClosed := true, workerDone := true } := by
            unfold drainStep
            rw [if_neg hnq]
            simp [htx, hop, hie, hrxq]
          rw [hds]
          refine ⟨ChanStep.recvClosedFinal s hw hie hrxq hrx hop, ?_⟩
          simp [chanMeasure, hw]
        · -- receive the next buffered rx item directly
          have hds : drainStep s
              = { s with rxQ := rest2, outPending := some a } := by
            unfold drainStep
            rw [if_neg hnq]
            simp [htx, hop, hie, hrxq]
          rw [hds]
          refine ⟨ChanStep.recvDirect s a rest2 hw hie hrxq hop, ?_⟩
          simp [chanMeasure, hrxq]
          omega
    · -- output enabled: send, then refill from the buffer
      have htxlen : s.txQ.length < s.ms := by
        rw [htx]
        simpa using hms
      rcases hl : l with - | ⟨x, xs⟩
      · -- buffer empty: Pop reports found=false
        have hcnt : s.buf.count = 0 := by
          obtain ⟨-, -, -, -, hcnt, -⟩ := hq
          rw [hl] at hcnt
          simpa using hcnt
        have hpe : s.buf.Pop = ((none, false), s.buf) := pop_empty s.buf hcnt
        rcases hie : s.inEnabled with - | -
        · have hds : drainStep s
              = { s with
                  txQ := s.txQ ++ [a], outPending := none, buf := s.buf,
                  txClosed := true, quitClosed := true, workerDone := true } := by
            unfold drainStep
            rw [if_neg hnq]
            simp [htx, hop, hie, hpe]
          rw [hds]
          refine ⟨ChanStep.sendEmptyClosed s a none s.buf hw hop htxlen hpe hie, ?_⟩
          simp [chanMeasure, htx, hop, hie, hw]
        · have hds : drainStep s
              = { s with
                  txQ := s.txQ ++ [a], outPending := none, buf := s.buf } := by
            unfold drainStep
            rw [if_neg hnq]
            simp [htx, hop, hie, hpe]
          rw [hds]
          refine ⟨ChanStep.sendEmptyOpen s a none s.buf hw hop htxlen hpe hie, ?_⟩
          simp [chanMeasure, htx, hop, hie, hw]
      · -- buffer non-empty: Pop returns the next item
        rw [hl] at hq
        obtain ⟨hfst, hq2⟩ := pop_qinv hq
        rcases hbp2 : s.buf.Pop with ⟨⟨v0, ok0⟩, b2⟩
        have hv0 : v0 = some x ∧ ok0 = true := by
          rw [hbp2] at hfst
          simpa [Prod.ext_iff] using hfst
        obtain ⟨rfl, rfl⟩ := hv0
        have hq2b : QInv (2 <<< 10) b2 xs := by
          rw [hbp2] at hq2
          exact hq2
        have hcnt1 : s.buf.count = xs.length + 1 := by
          obtain ⟨-, -, -, -, hcnt, -⟩ := hq
          simpa using hcnt
        have hcnt2 : b2.count = xs.length := by
          obtain ⟨-, -, -, -, hcnt, -⟩ := hq2b
          simpa using hcnt
        have hds : drainStep s
            = { s with
                txQ := s.txQ ++ [a], outPending := some x, buf := b2 } := by
          unfold drainStep
          rw [if_neg hnq]
          simp [htx, hop, hbp2]
        rw [hds]
        refine ⟨ChanStep.sendNext s a (some x) b2 hw hop htxlen hbp2, ?_⟩
        simp [chanMeasure, htx, hop, hw, hcnt1, hcnt2]
        omega
  · -- tx non-empty: the consumer pops
    have hds : drainStep s
        = { s with
            txQ := rest, popped := s.popped ++ [(some v, true)] } := by
      unfold drainStep
      rw [if_neg hnq]
      simp [htx]
    rw [hds]
    refine ⟨ChanStep.popItem s v rest htx, ?_⟩
    simp [chanMeasure, htx]


/-- Bounded termination of the drain schedule, by induction on the measure. -/
theorem drain_terminates {α : Type} (n : Nat) :
    ∀ (s : ChanSys α), chanMeasure s ≤ n → ChanInv s → s.rxClosed = true →
      0 < s.ms →
      ∃ m, m ≤ chanMeasure s ∧ (drainIter m s).quitClosed = true ∧
        Relation.ReflTransGen ChanStep s (drainIter m s) := by
  induction n with
  | zero =>
    intro s hle hinv hrx hms
    by_cases hqc : s.quitClosed = true
    · exact ⟨0, by omega, hqc, Relation.ReflTransGen.refl⟩
    · exfalso
      have hqf : s.quitClosed = false := by
        revert hqc
        cases s.quitClosed <;> simp
      obtain ⟨-, hlt⟩ := drain_progress hinv hrx hqf hms
      omega
  | succ n ih =>
    intro s hle hinv hrx hms
    by_cases hqc : s.quitClosed = true
    · exact ⟨0, by omega, hqc, Relation.ReflTransGen.refl⟩
    · have hqf : s.quitClosed = false := by
        revert hqc
        cases s.quitClosed <;> simp
      obtain ⟨hstep, hlt⟩ := drain_progress hinv hrx hqf hms
      have hinv2 := chanInv_step hinv hstep
      have hrx2 := chanStep_rxClosed hstep hrx
      have hms2 : 0 < (drainStep s).ms := by
        rw [chanStep_ms hstep]
        exact hms
      obtain ⟨m, hm, hquit, hsteps⟩ := ih (drainStep s) (by omega) hinv2 hrx2 hms2
      refine ⟨m + 1, by omega, hquit, Relation.ReflTransGen.head hstep hsteps⟩

/-- The termination measure is linear in the number of undelivered items. -/
theorem chanMeasure_le_pend {α : Type} (s : ChanSys α) :
    chanMeasure s ≤ 3 * pendCount s + 3 := by
  unfold chanMeasure pendCount
  cases s.outPending <;> cases s.inEnabled <;> cases s.workerDone <;>
    simp <;> omega

/-- C4.  Once the input of a `FlexibleChan` is closed, the worker terminates —
closing `tx` and signalling waiters (`quit`, on which `Wait` blocks) — within
a number of system steps linear in the number of items still undelivered at
that point (buffered in `rx`, in the worker, in the queue, or in `tx`),
under the drain schedule in which the consumer keeps popping; every step of
that schedule is a genuine step of the system. -/
theorem claimC4_close_terminates (α : Type) (ms : Nat) (s : ChanSys α)
    (hms : 0 < ms) (hreach : ChanReachable α ms s) (hrx : s.rxClosed = true) :
    ∃ n, n ≤ 3 * pendCount s + 3 ∧
      (drainIter n s).quitClosed = true ∧
      (drainIter n s).txClosed = true ∧
      (drainIter n s).workerDone = true ∧
      ChanReachable α ms (drainIter n s) := by
  have hinv := chanInv_reach hreach
  have hmss : 0 < s.ms := by
    rw [chanReach_ms hreach]
    exact hms
  obtain ⟨m, hm, hquit, hsteps⟩ :=
    drain_terminates (chanMeasure s) s le_rfl hinv hrx hmss
  have hreach2 : ChanReachable α ms (drainIter m s) :=
    Relation.ReflTransGen.trans hreach hsteps
  obtain ⟨l, k, f, -, -, -, -, -, -, -, -, -, htc2, hqc2⟩ :=
    chanInv_reach hreach2
  have hw2 : (drainIter m s).workerDone = true := by
    rw [← hqc2]
    exact hquit
  exact ⟨m, le_trans hm (chanMeasure_le_pend s), hquit,
    by rw [htc2]; exact hw2, hw2, hreach2⟩

/-- Witness for C4: a freshly created channel whose input has just been
closed drains to termination. -/
theorem claimC4_close_terminates_witness :
    ∃ n, n ≤ 3 * pendCount { initChan Nat 1 with rxClosed := true } + 3 ∧
      (drainIter n { initChan Nat 1 with rxClosed := true }).quitClosed = true ∧
      (drainIter n { initChan Nat 1 with rxClosed := true }).txClosed = true ∧
      (drainIter n { initChan Nat 1 with rxClosed := true }).workerDone = true ∧
      ChanReachable Nat 1 (drainIter n { initChan Nat 1 with rxClosed := true }) :=
  claimC4_close_terminates Nat 1 { initChan Nat 1 with rxClosed := true }
    (by decide)
    (Relation.ReflTransGen.single (ChanStep.closeInput (initChan Nat 1) rfl))
    rfl

/-! ## Collation-loop claims -/

/-- C5.  Threshold trigger: whenever, at a `default` evaluation of the loop's
`select` (the branch that is independent of the periodic timer), the combined
pending gauge+counter count has reached the configured maximum and the loop is
not shutting down, the loop posts the accumulated batch (exactly the pending
lists, each side present only when non-empty) and resets both accumulation
lists to empty. -/
theorem claimC5_threshold_flush (ω : Type) (mx : Nat) (s : LoopState ω)
    (hrun : s.stopped = false) (hclosed : ¬ s.closed = 2) (hmx : 0 < mx)
    (hth : mx ≤ s.gauges.length + s.counters.length) :
    (workStep mx s LoopEvent.deflt).gauges = [] ∧
    (workStep mx s LoopEvent.deflt).counters = [] ∧
    (workStep mx s LoopEvent.deflt).posted
      = s.posted ++ [(Trigger.threshold,
          (if 0 < s.gauges.length then some s.gauges else none),
          (if 0 < s.counters.length then some s.counters else none))] := by
  have hne : 0 < s.gauges.length ∨ 0 < s.counters.length := by omega
  unfold workStep
  rw [if_neg (by simp [hrun])]
  simp only
  rw [if_neg hclosed, if_pos hth, if_pos hne]
  refine ⟨rfl, rfl, ?_⟩
  simp [mkParams]

/-- Witness for C5: two pending metrics with a threshold of two flush at the
next `default` evaluation. -/
theorem claimC5_threshold_flush_witness :
    (workStep 2 (⟨[1], [2], 0, true, true, [], false⟩ : LoopState Nat)
        LoopEvent.deflt).gauges = [] ∧
    (workStep 2 (⟨[1], [2], 0, true, true, [], false⟩ : LoopState Nat)
        LoopEvent.deflt).counters = [] ∧
    (workStep 2 (⟨[1], [2], 0, true, true, [], false⟩ : LoopState Nat)
        LoopEvent.deflt).posted
      = [] ++ [(Trigger.threshold,
          (if 0 < [1].length then some [1] else none),
          (if 0 < [2].length then some [2] else none))] :=
  claimC5_threshold_flush Nat 2 ⟨[1], [2], 0, true, true, [], false⟩
    rfl (by decide) (by decide) (by decide)

/-- C6 fails on the code: on the timer trigger the loop posts the map
`{"gauges": gauges, "counters": counters}` with both keys unconditionally.
Concretely, after accumulating one gauge and no counters, the tick flush
posts a body that contains a `"counters"` entry (the empty list) although the
accumulated counter list is empty. -/
theorem claimC6_counterexample_timer_posts_empty_side :
    (runLoop 300 (initLoop Nat)
        [LoopEvent.gaugeRecv 0, LoopEvent.tick]).posted
      = [(Trigger.timer, some [0], some ([] : List Nat))] ∧
    (some ([] : List Nat)).isSome = true := by
  constructor
  · rfl
  · rfl

/-- The single-step form of the amended C6: any batch a `workStep` newly
appends to the post log has non-empty sides only, when flushed by the
threshold or shutdown trigger; a timer flush carries both keys (possibly an
empty side), with at least one side non-empty. -/
theorem workStep_posted_sides {ω : Type} (mx : Nat) (s : LoopState ω)
    (e : LoopEvent ω) :
    ∀ p ∈ (workStep mx s e).posted, p ∈ s.posted ∨
      (((p.1 = Trigger.threshold ∨ p.1 = Trigger.shutdown) →
        (∀ gl, p.2.1 = some gl → gl ≠ []) ∧ (∀ cl, p.2.2 = some cl → cl ≠ [])) ∧
      (p.1 = Trigger.timer →
        ∃ gl cl, p.2.1 = some gl ∧ p.2.2 = some cl ∧ (gl ≠ [] ∨ cl ≠ []))) := by
  intro p hp
  unfold workStep at hp
  by_cases hst : s.stopped = true
  · rw [if_pos hst] at hp
    exact Or.inl hp
  · rw [if_neg hst] at hp
    cases e with
    | tick =>
      simp only at hp
      by_cases hne : 0 < s.gauges.length ∨ 0 < s.counters.length
      · rw [if_pos hne] at hp
        simp only [List.mem_append, List.mem_singleton] at hp
        rcases hp with hp | hp
        · exact Or.inl hp
        · right
          subst hp
          refine ⟨?_, ?_⟩
          · rintro (h | h) <;> exact absurd h (by simp)
          · intro h
            refine ⟨s.gauges, s.counters, rfl, rfl, ?_⟩
            rcases hne with h1 | h1
            · exact Or.inl (by intro h0; rw [h0] at h1; simp at h1)
            · exact Or.inr (by intro h0; rw [h0] at h1; simp at h1)
      · rw [if_neg hne] at hp
        exact Or.inl hp
    | gaugeRecv v =>
      simp only at hp
      split at hp <;> exact Or.inl hp
    | gaugeClosed =>
      simp only at hp
      split at hp <;> exact Or.inl hp
    | counterRecv v =>
      simp only at hp
      split at hp <;> exact Or.inl hp
    | counterClosed =>
      simp only at hp
      split at hp <;> exact Or.inl hp
    | deflt =>
      simp only at hp
      by_cases hcl : s.closed = 2
      · rw [if_pos hcl] at hp
        by_cases hne : 0 < s.gauges.length ∨ 0 < s.counters.length
        · rw [if_pos hne] at hp
          simp only [List.mem_append, List.mem_singleton] at hp
          rcases hp with hp | hp
          · exact Or.inl hp
          · right
            subst hp
            refine ⟨fun _ => ⟨?_, ?_⟩, ?_⟩
            · intro gl hgl
              simp only [mkParams] at hgl
              split at hgl
              · rename_i hpos
                intro h0
                rw [Option.some.inj hgl, h0] at hpos
                simp at hpos
              · exact Option.noConfusion hgl
            · intro cl hcl2
              simp only [mkParams] at hcl2
              split at hcl2
              · rename_i hpos
                intro h0
                rw [Option.some.inj hcl2, h0] at hpos
                simp at hpos
              · exact Option.noConfusion hcl2
            · intro h
              exact absurd h (by simp)
        · rw [if_neg hne] at hp
          simp only [List.append_nil] at hp
          exact Or.inl hp
      · rw [if_neg hcl] at hp
        by_cases hth : mx ≤ s.gauges.length + s.counters.length
        · rw [if_pos hth] at hp
          by_cases hne : 0 < s.gauges.length ∨ 0 < s.counters.length
          · rw [if_pos hne] at hp
            simp only [List.mem_append, List.mem_singleton] at hp
            rcases hp with hp | hp
            · exact Or.inl hp
            · right
              subst hp
              refine ⟨fun _ => ⟨?_, ?_⟩, ?_⟩
              · intro gl hgl
                simp only [mkParams] at hgl
                split at hgl
                · rename_i hpos
                  intro h0
                  rw [Option.some.inj hgl, h0] at hpos
                  simp at hpos
                · exact Option.noConfusion hgl
              · intro cl hcl2
                simp only [mkParams] at hcl2
                split at hcl2
                · rename_i hpos
                  intro h0
                  rw [Option.some.inj hcl2, h0] at hpos
                  simp at hpos
                · exact Option.noConfusion hcl2
              · intro h
                exact absurd h (by simp)
          · rw [if_neg hne] at hp
            simp only [List.append_nil] at hp
            exact Or.inl hp
        · rw [if_neg hth] at hp
          exact Or.inl hp

/-- C6 (amended).  Every flush hands the accumulated batch to the transport
with: only non-empty sides present when flushed by the threshold or the
shutdown trigger, and — unlike what the original claim states — both a
`"gauges"` and a `"counters"` entry (one side possibly the empty list, at
least one non-empty) when flushed by the timer trigger. -/
theorem claimC6_amended_flush_sides (ω : Type) (mx : Nat)
    (es : List (LoopEvent ω)) :
    ∀ p ∈ (runLoop mx (initLoop ω) es).posted,
      ((p.1 = Trigger.threshold ∨ p.1 = Trigger.shutdown) →
        (∀ gl, p.2.1 = some gl → gl ≠ []) ∧
        (∀ cl, p.2.2 = some cl → cl ≠ [])) ∧
      (p.1 = Trigger.timer →
        ∃ gl cl, p.2.1 = some gl ∧ p.2.2 = some cl ∧ (gl ≠ [] ∨ cl ≠ [])) := by
  suffices h : ∀ (es : List (LoopEvent ω)) (s : LoopState ω),
      (∀ p ∈ s.posted,
        ((p.1 = Trigger.threshold ∨ p.1 = Trigger.shutdown) →
          (∀ gl, p.2.1 = some gl → gl ≠ []) ∧
          (∀ cl, p.2.2 = some cl → cl ≠ [])) ∧
        (p.1 = Trigger.timer →
          ∃ gl cl, p.2.1 = some gl ∧ p.2.2 = some cl ∧ (gl ≠ [] ∨ cl ≠ []))) →
      ∀ p ∈ (runLoop mx s es).posted,
        ((p.1 = Trigger.threshold ∨ p.1 = Trigger.shutdown) →
          (∀ gl, p.2.1 = some gl → gl ≠ []) ∧
          (∀ cl, p.2.2 = some cl → cl ≠ [])) ∧
        (p.1 = Trigger.timer →
          ∃ gl cl, p.2.1 = some gl ∧ p.2.2 = some cl ∧ (gl ≠ [] ∨ cl ≠ [])) by
    exact h es (initLoop ω) (by intro p hp; simp [initLoop] at hp)
  intro es
  induction es with
  | nil => intro s hs; exact hs
  | cons e es ih =>
    intro s hs
    apply ih
    intro p hp
    rcases workStep_posted_sides mx s e p hp with h | h
    · exact hs p h
    · exact h

/-- Witness for C6 (amended), at a concrete trace: the timer flush after one
gauge item carries both sides. -/
theorem claimC6_amended_flush_sides_witness :
    ∃ gl cl, ((Trigger.timer, some [0], some ([] : List Nat)) :
        Trigger × Option (List Nat) × Option (List Nat)).2.1 = some gl ∧
      (Trigger.timer, some [0], some ([] : List Nat)).2.2 = some cl ∧
      (gl ≠ [] ∨ cl ≠ []) :=
  (claimC6_amended_flush_sides Nat 300 [LoopEvent.gaugeRecv 0, LoopEvent.tick]
    (Trigger.timer, some [0], some [])
    (by rw [(claimC6_counterexample_timer_posts_empty_side).1]; simp)).2 rfl

/-! ## `Close` claims -/

/-- A successful `closeAllChans` leaves every per-source channel closed. -/
theorem closeAllChans_all_closed :
    ∀ (l g : List Bool), closeAllChans l = some g → ∀ b ∈ g, b = true := by
  intro l
  induction l with
  | nil =>
    intro g hg b hb
    rw [show closeAllChans [] = some [] from rfl] at hg
    rw [← Option.some.inj hg] at hb
    simp at hb
  | cons x xs ih =>
    intro g hg b hb
    unfold closeAllChans at hg
    rw [List.mapM_cons] at hg
    cases x with
    | true => exact Option.noConfusion hg
    | false =>
      simp only [closeRxChan, if_neg (by simp : ¬ (false = true)),
        Option.bind_eq_bind, Option.some_bind] at hg
      rcases hxs : xs.mapM closeRxChan with - | ys
      · rw [hxs] at hg
        exact Option.noConfusion hg
      · rw [hxs] at hg
        simp only [Option.some_bind] at hg
        have := Option.some.inj hg
        rw [← this] at hb
        rcases List.mem_cons.mp hb with rfl | hb2
        · rfl
        · exact ih ys hxs b hb2

/-- Closing an already-closed list of channels panics unless it is empty. -/
theorem closeAllChans_closed_again :
    ∀ (l : List Bool), (∀ b ∈ l, b = true) →
      closeAllChans l = (if l = [] then some [] else none) := by
  intro l hl
  cases l with
  | nil => rfl
  | cons x xs =>
    have hx : x = true := hl x (by simp)
    subst hx
    unfold closeAllChans
    rw [List.mapM_cons]
    rfl

/-- C9 fails on the code: closing a Go channel twice panics, and
`TimeCollatedClient.Close` closes the collation channels unconditionally, so a
second `Close` after a first completed `Close` always panics (already on the
shared gauge collation channel, and on the first per-source channel if any
source exists). -/
theorem claimC9_counterexample_double_close :
    clientClose ⟨[false], [], false, false⟩
      = some ⟨[true], [], true, true⟩ ∧
    clientClose ⟨[true], [], true, true⟩ = none := by
  constructor
  · rfl
  · rfl

/-- C9 (amended).  `Close` stops acceptance of new observations on every
per-source channel and on both shared collation channels (a completed first
`Close` leaves every input channel closed) — but it is not idempotent: a
second `Close` after a first completed `Close` panics on the first
already-closed channel it reaches, instead of leaving the terminal state
unchanged. -/
theorem claimC9_amended_close_not_idempotent (c c2 : ClientChans)
    (h : clientClose c = some c2) :
    (∀ b ∈ c2.gauges, b = true) ∧ (∀ b ∈ c2.counters, b = true) ∧
    c2.collateGauges = true ∧ c2.collateCounters = true ∧
    clientClose c2 = none := by
  unfold clientClose at h
  rcases hg : closeAllChans c.gauges with - | g
  · rw [hg] at h
    exact Option.noConfusion h
  · rw [hg] at h
    simp only [Option.bind_eq_bind, Option.some_bind] at h
    rcases ht : closeAllChans c.counters with - | t
    · rw [ht] at h
      exact Option.noConfusion h
    · rw [ht] at h
      simp only [Option.some_bind] at h
      rcases hcg : closeRxChan c.collateGauges with - | cg
      · rw [hcg] at h
        exact Option.noConfusion h
      · rw [hcg] at h
        simp only [Option.some_bind] at h
        rcases hcc : closeRxChan c.collateCounters with - | cc
        · rw [hcc] at h
          exact Option.noConfusion h
        · rw [hcc] at h
          simp only [Option.some_bind] at h
          have hcg2 : cg = true := by
            unfold closeRxChan at hcg
            split at hcg
            · exact Option.noConfusion hcg
            · exact (Option.some.inj hcg).symm
          have hcc2 : cc = true := by
            unfold closeRxChan at hcc
            split at hcc
            · exact Option.noConfusion hcc
            · exact (Option.some.inj hcc).symm
          have hc2 : c2 = ⟨g, t, cg, cc⟩ := (Option.some.inj h).symm
          subst hc2
          refine ⟨closeAllChans_all_closed c.gauges g hg,
            closeAllChans_all_closed c.counters t ht, hcg2, hcc2, ?_⟩
          show clientClose ⟨g, t, cg, cc⟩ = none
          unfold clientClose
          rw [closeAllChans_closed_again g (closeAllChans_all_closed c.gauges g hg)]
          by_cases hgnil : g = []
          · rw [if_pos hgnil]
            simp only [Option.bind_eq_bind, Option.some_bind]
            rw [closeAllChans_closed_again t
              (closeAllChans_all_closed c.counters t ht)]
            by_cases htnil : t = []
            · rw [if_pos htnil]
              simp only [Option.some_bind]
              rw [hcg2]
              rfl
            · rw [if_neg htnil]
              rfl
          · rw [if_neg hgnil]
            rfl

/-- Witness for C9 (amended): one gauge source. -/
theorem claimC9_amended_close_not_idempotent_witness :
    (∀ b ∈ [true], b = true) ∧ (∀ b ∈ ([] : List Bool), b = true) ∧
    (true = true) ∧ (true = true) ∧
    clientClose ⟨[true], [], true, true⟩ = none :=
  claimC9_amended_close_not_idempotent ⟨[false], [], false, false⟩
    ⟨[true], [], true, true⟩ rfl

/-! ## `PostAnnotation` claim -/

/-- C10.  `PostAnnotation` called with an empty name returns
`ErrNoNameAnnotation` immediately: no serialization is performed, no request
is made, and the client state is returned unchanged. -/
theorem claimC10_post_annotation_empty_name (σ : Type) (st : σ) :
    postAnnotationModel σ st "" = (st, [], some errNoNameAnnotMsg) :=
  rfl

/-! ## Observation-normalisation claims -/

theorem lookup_cons_eq {β : Type} (a : String × β) (l : List (String × β))
    (k : String) :
    ((a :: l).lookup k) = if k = a.1 then some a.2 else l.lookup k := by
  rw [List.lookup_cons]
  by_cases h : k = a.1
  · have hb : (k == a.1) = true := by simp [h]
    rw [hb, if_pos h]
  · have hb : (k == a.1) = false := by simp [h]
    rw [hb, if_neg h]

theorem lookup_append_eq {β : Type} (l1 l2 : List (String × β)) (k : String) :
    (l1 ++ l2).lookup k
      = match l1.lookup k with
        | some v => some v
        | none => l2.lookup k := by
  induction l1 with
  | nil => simp
  | cons a l ih =>
    rw [List.cons_append, lookup_cons_eq, lookup_cons_eq]
    by_cases h : k = a.1
    · simp [h]
    · simp [h, ih]

theorem lookup_eq_none_of_not_mem {β : Type} (l : List (String × β))
    (k : String) (h : k ∉ l.map Prod.fst) : l.lookup k = none := by
  induction l with
  | nil => rfl
  | cons a l ih =>
    rw [lookup_cons_eq]
    simp only [List.map_cons, List.mem_cons] at h
    push_neg at h
    rw [if_neg h.1]
    exact ih h.2

/-- Folding `b[k] = v` assignments over the fields: the last binding of a key
wins, and unbound keys fall through to the initial map. -/
theorem foldl_setK (fs : List (String × GoVal)) (b : String → Option GoVal)
    (k : String) :
    (fs.foldl (fun b kv => setK b kv.1 kv.2) b) k
      = match fs.reverse.lookup k with
        | some v => some v
        | none => b k := by
  induction fs generalizing b with
  | nil => rfl
  | cons kv rest ih =>
    rw [List.foldl_cons, ih, List.reverse_cons, lookup_append_eq]
    rcases hr : rest.reverse.lookup k with - | v
    · simp only
      rw [lookup_cons_eq]
      by_cases h : k = kv.1
      · simp [setK, h]
      · simp [setK, h]
    · simp only

/-- With duplicate-free keys — always true of a Go map — the last binding is
the only binding. -/
theorem lookup_reverse_of_nodup {β : Type} (fs : List (String × β))
    (h : (fs.map Prod.fst).Nodup) (k : String) :
    fs.reverse.lookup k = fs.lookup k := by
  induction fs with
  | nil => rfl
  | cons kv rest ih =>
    rw [List.map_cons, List.nodup_cons] at h
    have hrhs : (kv :: rest).lookup k
        = if k = kv.1 then some kv.2 else rest.lookup k :=
      lookup_cons_eq kv rest k
    have hkv : ([kv] : List (String × β)).lookup k
        = if k = kv.1 then some kv.2 else none :=
      lookup_cons_eq kv [] k
    rw [List.reverse_cons, lookup_append_eq, ih h.2, hrhs, hkv]
    by_cases hk : k = kv.1
    · have hnone : rest.lookup k = none :=
        lookup_eq_none_of_not_mem rest k (by rw [hk]; exact h.1)
      rw [hnone]
    · rcases hr : rest.lookup k with - | v <;> simp [hk]

/-- Pointwise evaluation of the built observation: a field of the raw record
wins over everything; otherwise `value` (for scalar items), the configured
source label, the timestamp and the metric name are consulted in the order the
code writes them. -/
theorem buildObservation_eval (name source : String) (now : Int)
    (item : GoVal) (hnd : noDupKeys item) (kk : String) :
    buildObservation name source now item kk
      = match itemLookup item kk with
        | some v => some v
        | none =>
          if isRecord item = false ∧ kk = "value" then some item
          else if kk = "source" ∧ ¬ source = "" then some (GoVal.vstr source)
          else if kk = "measure_time" then some (GoVal.vint now)
          else if kk = "name" then some (GoVal.vstr name)
          else none := by
  cases item with
  | vstr s0 =>
    by_cases h0 : kk = "value"
    · subst h0
      by_cases hs : source = "" <;> simp [buildObservation, itemLookup,
        isRecord, setK, hs]
    · by_cases h1 : kk = "source"
      · subst h1
        by_cases hs : source = "" <;> simp [buildObservation, itemLookup,
          isRecord, setK, hs]
      · by_cases h2 : kk = "measure_time"
        · subst h2
          by_cases hs : source = "" <;> simp [buildObservation, itemLookup,
            isRecord, setK, hs]
        · by_cases h3 : kk = "name"
          · subst h3
            by_cases hs : source = "" <;> simp [buildObservation, itemLookup,
              isRecord, setK, hs]
          · by_cases hs : source = "" <;> simp [buildObservation, itemLookup,
              isRecord, setK, hs, h0, h1, h2, h3]
  | vint n0 =>
    by_cases h0 : kk = "value"
    · subst h0
      by_cases hs : source = "" <;> simp [buildObservation, itemLookup,
        isRecord, setK, hs]
    · by_cases h1 : kk = "source"
      · subst h1
        by_cases hs : source = "" <;> simp [buildObservation, itemLookup,
          isRecord, setK, hs]
      · by_cases h2 : kk = "measure_time"
        · subst h2
          by_cases hs : source = "" <;> simp [buildObservation, itemLookup,
            isRecord, setK, hs]
        · by_cases h3 : kk = "name"
          · subst h3
            by_cases hs : source = "" <;> simp [buildObservation, itemLookup,
              isRecord, setK, hs]
          · by_cases hs : source = "" <;> simp [buildObservation, itemLookup,
              isRecord, setK, hs, h0, h1, h2, h3]
  | vmap fs =>
    have hnd2 : (fs.map Prod.fst).Nodup := hnd
    have hfold : ∀ (b : String → Option GoVal) (k2 : String),
        (fs.foldl (fun b kv => setK b kv.1 kv.2) b) k2
          = match fs.lookup k2 with
            | some v => some v
            | none => b k2 := by
      intro b k2
      rw [foldl_setK, lookup_reverse_of_nodup fs hnd2]
    by_cases h0 : kk = "value"
    · subst h0
      rcases hmt : fs.lookup "measure_time" with - | mtv <;>
        rcases hkk : fs.lookup "value" with - | kv <;>
          by_cases hs : source = "" <;>
            simp [buildObservation, itemLookup, isRecord, setK, hfold, hmt,
              hkk, hs]
    · by_cases h1 : kk = "source"
      · subst h1
        rcases hmt : fs.lookup "measure_time" with - | mtv <;>
          rcases hkk : fs.lookup "source" with - | kv <;>
            by_cases hs : source = "" <;>
              simp [buildObservation, itemLookup, isRecord, setK, hfold, hmt,
                hkk, hs]
      · by_cases h2 : kk = "measure_time"
        · subst h2
          rcases hmt : fs.lookup "measure_time" with - | mtv <;>
            by_cases hs : source = "" <;>
              simp [buildObservation, itemLookup, isRecord, setK, hfold, hmt,
                hs]
        · by_cases h3 : kk = "name"
          · subst h3
            rcases hmt : fs.lookup "measure_time" with - | mtv <;>
              rcases hkk : fs.lookup "name" with - | kv <;>
                by_cases hs : source = "" <;>
                  simp [buildObservation, itemLookup, isRecord, setK, hfold,
                    hmt, hkk, hs]
          · rcases hmt : fs.lookup "measure_time" with - | mtv <;>
              rcases hkk : fs.lookup kk with - | kv <;>
                by_cases hs : source = "" <;>
                  simp [buildObservation, itemLookup, isRecord, setK, hfold,
                    hmt, hkk, hs, h0, h1, h2, h3]

/-- C7 fails on the code: the merge of a structured record's fields happens
after the `"name"` and `"source"` keys are written, so a record that carries
its own `"name"` (or `"source"`) field overrides them.  Concretely, for a
feeder named `"g"` with no configured source, the raw record
`{"name": 5, "source": "x"}` yields an observation whose `"name"` is `5`
(not `"g"`) and which carries a `"source"` label although the configured
source string is empty. -/
theorem claimC7_counterexample_merge_overrides :
    buildObservation "g" "" 7
        (GoVal.vmap [("name", GoVal.vint 5), ("source", GoVal.vstr "x")])
        "name" = some (GoVal.vint 5) ∧
    ¬ buildObservation "g" "" 7
        (GoVal.vmap [("name", GoVal.vint 5), ("source", GoVal.vstr "x")])
        "name" = some (GoVal.vstr "g") ∧
    buildObservation "g" "" 7
        (GoVal.vmap [("name", GoVal.vint 5), ("source", GoVal.vstr "x")])
        "source" = some (GoVal.vstr "x") := by
  refine ⟨rfl, ?_, rfl⟩
  intro h
  rw [show buildObservation "g" "" 7
      (GoVal.vmap [("name", GoVal.vint 5), ("source", GoVal.vstr "x")])
      "name" = some (GoVal.vint 5) from rfl] at h
  exact GoVal.noConfusion (Option.some.inj h)

/-- C7 (amended).  Every observation built by `runMetric` for source name `n`
from a raw value `v` (with duplicate-free field names, as for any Go map)
satisfies: its `"name"` field is `n` unless `v` is a record carrying its own
`"name"` field, which overrides it; all fields of a record `v` are merged into
the observation (overriding the initial keys); a non-record `v` is stored
under `"value"`; the `"measure_time"` timestamp defaults to the current epoch
seconds unless the record carries one; and the `"source"` entry is the
record's own `"source"` field if present, else the configured source exactly
when it is non-empty. -/
theorem claimC7_amended_observation (name source : String) (now : Int)
    (item : GoVal) (hnd : noDupKeys item) :
    (buildObservation name source now item "name"
      = some ((itemLookup item "name").getD (GoVal.vstr name))) ∧
    (∀ k v, itemLookup item k = some v →
      buildObservation name source now item k = some v) ∧
    (isRecord item = false →
      buildObservation name source now item "value" = some item) ∧
    (buildObservation name source now item "measure_time"
      = some ((itemLookup item "measure_time").getD (GoVal.vint now))) ∧
    (buildObservation name source now item "source"
      = match itemLookup item "source" with
        | some v => some v
        | none => if ¬ source = "" then some (GoVal.vstr source) else none) := by
  refine ⟨?_, ?_, ?_, ?_, ?_⟩
  · rw [buildObservation_eval name source now item hnd "name"]
    rcases h : itemLookup item "name" with - | v <;> simp
  · intro k v hkv
    rw [buildObservation_eval name source now item hnd k, hkv]
  · intro hrec
    rw [buildObservation_eval name source now item hnd "value"]
    have hnone : itemLookup item "value" = none := by
      cases item with
      | vmap fs => simp [isRecord] at hrec
      | vstr s0 => rfl
      | vint n0 => rfl
    rw [hnone]
    simp [hrec]
  · rw [buildObservation_eval name source now item hnd "measure_time"]
    rcases h : itemLookup item "measure_time" with - | v <;> simp
  · rw [buildObservation_eval name source now item hnd "source"]
    rcases h : itemLookup item "source" with - | v
    · by_cases hs : source = "" <;> simp [hs]
    · simp

/-- Witness for C7 (amended), with a scalar raw value. -/
theorem claimC7_amended_observation_witness :
    (buildObservation "g" "" 7 (GoVal.vint 3) "name"
      = some ((itemLookup (GoVal.vint 3) "name").getD (GoVal.vstr "g"))) ∧
    (∀ k v, itemLookup (GoVal.vint 3) k = some v →
      buildObservation "g" "" 7 (GoVal.vint 3) k = some v) ∧
    (isRecord (GoVal.vint 3) = false →
      buildObservation "g" "" 7 (GoVal.vint 3) "value" = some (GoVal.vint 3)) ∧
    (buildObservation "g" "" 7 (GoVal.vint 3) "measure_time"
      = some ((itemLookup (GoVal.vint 3) "measure_time").getD (GoVal.vint 7))) ∧
    (buildObservation "g" "" 7 (GoVal.vint 3) "source"
      = match itemLookup (GoVal.vint 3) "source" with
        | some v => some v
        | none => if ¬ ("" : String) = "" then some (GoVal.vstr "") else none) :=
  claimC7_amended_observation "g" "" 7 (GoVal.vint 3) trivial

end Librato
